import Mathlib

/-!
# Task manager (`lab_2_1/Lab-2_1-IDE-project/main.cpp`)

A shallow embedding of the task store of `main.cpp`: the `Task` hierarchy
(`NormalTask`, `ImportantTask`), the store `TaskMananger` (a `std::list<Task*>`)
and its operations, together with the C library / STL primitives those
operations call (`std::getline`, `std::stoi`, `std::to_string`, `strptime`,
`strftime`, `mktime`, `std::list::sort`).

Modelling conventions.

* A `std::string` is a `List Char`.
* A C `int` is a `CInt`: an integer together with the proof that it fits in
  32 bits.
* A `std::tm` is reduced to the three date members the program itself reads and
  writes, through `strptime` and `strftime` (`tm_year`, `tm_mon`, `tm_mday`).
* `mktime` is the one library call whose effect depends on more than these: on
  the time zone of the process and on the members of `std::tm` left out here
  (`tm_hour`, `tm_isdst`, which an earlier call may have rewritten), and it can
  fail.  It is a parameter of the model (`Mktime`): what each call of a method
  returns and writes back into the date members.  `mktimeUTC` is the instance
  for a process in UTC.
* `strptime` and `strftime` follow the GNU C library: `%Y` reads at most four
  digits and prints the year without padding, `%m` and `%d` read at most two
  digits and print two.
* The store is the list of the pointed-to task objects, in list order.
* Console output is the text written to `std::cout` and `std::cerr`.
* A file is `Option Str`: `none` when the stream cannot be opened.
-/

namespace Lab21

/-! ## Strings and machine integers -/

/-- The type of `std::string` values. -/
abbrev Str := List Char

/-- A C `int` (32 bits, two's complement). -/
structure CInt where
  val : Int
  lo : -2147483648 ≤ val
  hi : val ≤ 2147483647
deriving DecidableEq

/-- The `int` with value `v` when `v` fits, seen through wrap-around otherwise. -/
def CInt.ofInt (v : Int) : CInt :=
  ⟨(v + 2147483648) % 4294967296 - 2147483648, by omega, by omega⟩

/-- C `isspace` in the "C" locale. -/
def isspace (c : Char) : Bool :=
  c = ' ' || c = '\t' || c = '\n' || c = Char.ofNat 11 || c = Char.ofNat 12 || c = '\r'

/-- C `isdigit`. -/
def isdigit (c : Char) : Bool :=
  decide ('0' ≤ c) && decide (c ≤ '9')

/-- The value `c - '0'` of a digit character. -/
def digitValue (c : Char) : Nat :=
  c.toNat - 48

/-- The character of a decimal digit. -/
def digitChar (d : Nat) : Char :=
  match d with
  | 0 => '0'
  | 1 => '1'
  | 2 => '2'
  | 3 => '3'
  | 4 => '4'
  | 5 => '5'
  | 6 => '6'
  | 7 => '7'
  | 8 => '8'
  | _ => '9'

/-- Decimal digits of `n`, most significant first, pushed in front of `acc`.
The first argument bounds the number of digits. -/
def natDigitsAux : Nat → Nat → Str → Str
  | 0, _, acc => acc
  | fuel + 1, n, acc =>
    if n / 10 = 0 then digitChar (n % 10) :: acc
    else natDigitsAux fuel (n / 10) (digitChar (n % 10) :: acc)

/-- Decimal representation of a natural number, without leading zeros. -/
def natDigits (n : Nat) : Str :=
  natDigitsAux (n + 1) n []

/-- Decimal text of an integer as `std::to_string(int)` and `operator<<(int)`
produce it. -/
def to_string (v : Int) : Str :=
  if v < 0 then '-' :: natDigits v.natAbs else natDigits v.natAbs

/-- The exceptions of `<stdexcept>` the program can meet, with their `what()`. -/
inductive StdException
  | runtime_error (what : Str)
  | invalid_argument (what : Str)
  | out_of_range (what : Str)
deriving DecidableEq

/-- The text of `e.what()`. -/
def StdException.what : StdException → Str
  | .runtime_error w => w
  | .invalid_argument w => w
  | .out_of_range w => w

instance instDecidableEqExcept {ε α : Type} [DecidableEq ε] [DecidableEq α] :
    DecidableEq (Except ε α) := fun a b =>
  match a, b with
  | .ok x, .ok y => if h : x = y then isTrue (by rw [h]) else isFalse (fun e => h (by cases e; rfl))
  | .error x, .error y =>
    if h : x = y then isTrue (by rw [h]) else isFalse (fun e => h (by cases e; rfl))
  | .ok _, .error _ => isFalse (fun e => by cases e)
  | .error _, .ok _ => isFalse (fun e => by cases e)

/-- Value of a run of decimal digits. -/
def digitsValue (ds : Str) : Nat :=
  ds.foldl (fun acc c => acc * 10 + digitValue c) 0

/-- The function `std::stoi(str)` (base 10): leading white space is skipped, an
optional sign is read, then the longest run of digits; what follows is ignored.
No digit: `std::invalid_argument`; a value outside `int`: `std::out_of_range`.
Both carry `what() == "stoi"`. -/
def stoi (str : Str) : Except StdException CInt :=
  let s := str.dropWhile isspace
  let negative : Bool := decide (s.head? = some '-')
  let body : Str := if s.head? = some '-' ∨ s.head? = some '+' then s.tail else s
  let ds := body.takeWhile isdigit
  if ds = [] then .error (.invalid_argument "stoi".toList)
  else
    let v : Int := if negative then -(digitsValue ds : Int) else (digitsValue ds : Int)
    if h : -2147483648 ≤ v ∧ v ≤ 2147483647 then .ok ⟨v, h.1, h.2⟩
    else .error (.out_of_range "stoi".toList)

/-- One call `std::getline(stream, field, delim)` on the unread part of a stream:
`none` when nothing can be extracted (the stream is exhausted), otherwise the
field read (without the delimiter) and the part left unread. -/
def getline (delim : Char) : Str → Option (Str × Str)
  | [] => none
  | c :: cs =>
    if c = delim then some ([], cs)
    else
      match getline delim cs with
      | none => some ([c], [])
      | some (field, rest) => some (c :: field, rest)

/-- The values successive calls `std::getline(stream, line, delim)` yield until
the first call that fails, as in `while (std::getline(file, line))`. -/
def getlines (delim : Char) : Str → List Str
  | [] => []
  | c :: cs =>
    if c = delim then [] :: getlines delim cs
    else
      match getlines delim cs with
      | [] => [[c]]
      | l :: ls => (c :: l) :: ls

/-- Output of `os << std::left << std::setw(n) << s`. -/
def setw (n : Nat) (s : Str) : Str :=
  s ++ List.replicate (n - s.length) ' '

/-! ## Calendar dates: `std::tm`, `strptime`, `strftime`, `mktime` -/

/-- The fields of `std::tm` the program uses: day of month (1-31), months since
January (0-11), years since 1900. -/
structure Tm where
  tm_mday : Int
  tm_mon : Int
  tm_year : Int
deriving DecidableEq

/-- The digit loop of `get_number` in `strptime`: `c` is the digit under the read
pointer, `rp` what follows it, `n` the number of digits still allowed. -/
def getNumberLoop (hi : Nat) : Nat → Nat → Char → Str → Nat × Str
  | 0, val, c, rp => (val * 10 + digitValue c, rp)
  | n + 1, val, c, rp =>
    if 0 < n ∧ (val * 10 + digitValue c) * 10 ≤ hi then
      match rp with
      | [] => (val * 10 + digitValue c, [])
      | d :: rp1 =>
        if isdigit d then getNumberLoop hi n (val * 10 + digitValue c) d rp1
        else (val * 10 + digitValue c, d :: rp1)
    else (val * 10 + digitValue c, rp)

/-- The step `get_number (lo, hi, n)` of `strptime`: skips white space, reads at
most `n` digits while the value can still stay below `hi`, and fails when there is
no digit or the value is outside `lo..hi`. -/
def getNumber (lo hi n : Nat) (rp : Str) : Option (Nat × Str) :=
  match rp.dropWhile isspace with
  | [] => none
  | c :: rest =>
    if isdigit c then
      if (getNumberLoop hi n 0 c rest).1 < lo ∨ hi < (getNumberLoop hi n 0 c rest).1 then none
      else some (getNumberLoop hi n 0 c rest)
    else none

/-- The call `strptime(s.c_str(), "%Y-%m-%d", &t)` on a zero-initialised `t`:
`none` for a null return, otherwise the fields written.  Characters after the
day are left unread and do not make the call fail. -/
def strptime (s : Str) : Option Tm :=
  match getNumber 0 9999 4 (s.takeWhile fun c => c ≠ Char.ofNat 0) with
  | some (y, '-' :: rp1) =>
    match getNumber 1 12 2 rp1 with
    | some (m, '-' :: rp2) =>
      match getNumber 1 31 2 rp2 with
      | some (d, _) => some { tm_year := (y : Int) - 1900, tm_mon := (m : Int) - 1, tm_mday := d }
      | none => none
    | _ => none
  | _ => none

/-- A number as `strftime` prints it with a minimum width, padded with zeros. -/
def fmtNumber (width : Nat) (v : Int) : Str :=
  let ds := natDigits v.natAbs
  let sign : Str := if v < 0 then ['-'] else []
  sign ++ List.replicate (width - (sign.length + ds.length)) '0' ++ ds

/-- The text `strftime(buffer, 80, "%Y-%m-%d", &t)` leaves in `buffer`: the year
with as many digits as it has, month and day on two digits. -/
def strftime (t : Tm) : Str :=
  fmtNumber 1 (t.tm_year + 1900) ++ '-' :: fmtNumber 2 (t.tm_mon + 1) ++ '-' :: fmtNumber 2 t.tm_mday

/-- Gregorian leap year. -/
def isLeap (y : Int) : Bool :=
  decide (y % 4 = 0) && (decide (y % 100 ≠ 0) || decide (y % 400 = 0))

/-- Number of days of month `m` (0 = January) of year `y`. -/
def monthLength (y m : Int) : Int :=
  if m = 1 then (if isLeap y then 29 else 28)
  else if m = 3 ∨ m = 5 ∨ m = 8 ∨ m = 10 then 30
  else 31

/-- Days of year `y` before the first of month `m` (0 = January). -/
def daysBeforeMonth (y m : Int) : Int :=
  (if m ≤ 0 then 0 else if m = 1 then 31 else if m = 2 then 59 else if m = 3 then 90
   else if m = 4 then 120 else if m = 5 then 151 else if m = 6 then 181
   else if m = 7 then 212 else if m = 8 then 243 else if m = 9 then 273
   else if m = 10 then 304 else 334)
  + (if 2 ≤ m ∧ isLeap y = true then 1 else 0)

/-- Days from 1970-01-01 to the first of January of year `y`. -/
def daysBeforeYear (y : Int) : Int :=
  365 * (y - 1970) + ((y - 1) / 4 - 492) - ((y - 1) / 100 - 19) + ((y - 1) / 400 - 4)

/-- A broken-down date naming a day of the calendar: month 0-11 and a day that
exists in that month. -/
def Tm.valid (t : Tm) : Prop :=
  0 ≤ t.tm_mon ∧ t.tm_mon ≤ 11 ∧ 1 ≤ t.tm_mday ∧ t.tm_mday ≤ monthLength (t.tm_year + 1900) t.tm_mon

instance (t : Tm) : Decidable t.valid := by
  unfold Tm.valid
  infer_instance

/-- Day number (days since 1970-01-01) of a date with month 0-11. -/
def dayNumber (t : Tm) : Int :=
  daysBeforeYear (t.tm_year + 1900) + daysBeforeMonth (t.tm_year + 1900) t.tm_mon + (t.tm_mday - 1)

/-- Carries a day of month outside its month into the neighbouring months, one
month per step; the first argument bounds the number of steps
(`normalize_valid`: the bound `normalize` passes is enough). -/
def normalizeDay : Nat → Tm → Tm
  | 0, t => t
  | fuel + 1, t =>
    if t.tm_mday < 1 then
      let p : Tm :=
        if t.tm_mon = 0 then { t with tm_mon := 11, tm_year := t.tm_year - 1 }
        else { t with tm_mon := t.tm_mon - 1 }
      normalizeDay fuel { p with tm_mday := t.tm_mday + monthLength (p.tm_year + 1900) p.tm_mon }
    else if monthLength (t.tm_year + 1900) t.tm_mon < t.tm_mday then
      let d := t.tm_mday - monthLength (t.tm_year + 1900) t.tm_mon
      if t.tm_mon = 11 then normalizeDay fuel { tm_mday := d, tm_mon := 0, tm_year := t.tm_year + 1 }
      else normalizeDay fuel { t with tm_mday := d, tm_mon := t.tm_mon + 1 }
    else t

/-- The date members in normal form, as a `mktime` in UTC writes them back: the
month is brought into 0-11 by carrying into the year, then the day into its
month. -/
def Tm.normalize (t : Tm) : Tm :=
  normalizeDay (t.tm_mday.natAbs + 1)
    { tm_mday := t.tm_mday, tm_mon := t.tm_mon % 12, tm_year := t.tm_year + t.tm_mon / 12 }

/-- One call `mktime(&t)` as the program sees it: from the date members found in
`t`, the `time_t` returned (-1 when the call fails) and the date members the call
leaves in `t`. -/
abbrev MktimeCall := Tm → Int × Tm

/-- The C library's `mktime` in a run of a method: the calls the method makes are
numbered, and each has its own `MktimeCall`.  What a call does depends on the time
zone of the process and on members of `std::tm` outside `Tm` (a call reads and
rewrites `tm_hour` and `tm_isdst`), so two calls may treat the same date members
differently; nothing is assumed about them. -/
abbrev Mktime := Nat → MktimeCall

/-- The `mktime` of a process whose time zone is UTC, on dates far from the limits
of `int` and `time_t`: every call returns the seconds from the epoch to midnight
of the day and writes the date back normalised. -/
def mktimeUTC : Mktime :=
  fun _ t => (dayNumber t.normalize * 86400, t.normalize)

/-- Calendar order on dates: earlier or the same day. -/
def Tm.le (a b : Tm) : Bool :=
  decide (a.tm_year < b.tm_year) ||
    (decide (a.tm_year = b.tm_year) &&
      (decide (a.tm_mon < b.tm_mon) || (decide (a.tm_mon = b.tm_mon) && decide (a.tm_mday ≤ b.tm_mday))))

/-! ## Tasks -/

/-- A task object: the two concrete classes derived from `Task`. -/
inductive Task
  | NormalTask (taskName description : Str) (deadline : Tm)
  | ImportantTask (taskName description : Str) (deadline : Tm) (priority : CInt)
deriving DecidableEq

namespace Task

/-- Accessor `Task::getName`. -/
def getName : Task → Str
  | NormalTask n _ _ => n
  | ImportantTask n _ _ _ => n

/-- Accessor `Task::getDescription`. -/
def getDescription : Task → Str
  | NormalTask _ d _ => d
  | ImportantTask _ d _ _ => d

/-- Accessor `Task::getDeadline`. -/
def getDeadline : Task → Tm
  | NormalTask _ _ t => t
  | ImportantTask _ _ t _ => t

/-- The task after a write to its `deadline` member through the reference
`getDeadline()` returns. -/
def withDeadline : Task → Tm → Task
  | NormalTask n d _, t => NormalTask n d t
  | ImportantTask n d _ p, t => ImportantTask n d t p

/-- The test `dynamic_cast<ImportantTask*>(task) != nullptr`. -/
def isImportant : Task → Bool
  | NormalTask _ _ _ => false
  | ImportantTask _ _ _ _ => true

/-- The virtual `getImportance`: `"Not Important"` for a `NormalTask`, the decimal
text of the priority for an `ImportantTask`. -/
def getImportance : Task → Str
  | NormalTask _ _ _ => "Not Important".toList
  | ImportantTask _ _ _ p => to_string p.val

/-- The method `Task::getDeadlineString`: `mktime` rewrites the deadline in place
(through the `const_cast`), then the date is formatted unless the call failed.
`call` is what that call of `mktime` does.  Returns the text and the task as the
method leaves it. -/
def getDeadlineString (call : MktimeCall) (task : Task) : Str × Task :=
  if (call task.getDeadline).1 ≠ -1 then
    (strftime (call task.getDeadline).2, task.withDeadline (call task.getDeadline).2)
  else ("Deadline: Not Set".toList, task.withDeadline (call task.getDeadline).2)

/-- The stream insertion `os << task` of a task: name and description in
left-aligned columns of 30 and 50, then the deadline and a newline. -/
def insertion (call : MktimeCall) (task : Task) : Str × Task :=
  (setw 30 task.getName ++ setw 50 task.getDescription ++ (getDeadlineString call task).1 ++ ['\n'],
   (getDeadlineString call task).2)

/-- The virtual `printTask`: the text written to `std::cout` and the task as the
call leaves it; `call` is what its one call of `mktime` does. -/
def printTask (call : MktimeCall) (task : Task) : Str × Task :=
  match task with
  | NormalTask _ _ _ =>
    ("[Normal] ".toList ++ (insertion call task).1 ++ ['\n'], (insertion call task).2)
  | ImportantTask _ _ _ p =>
    ("[Important] ".toList ++ (insertion call task).1 ++ ['\n']
      ++ "Priority: ".toList ++ to_string p.val ++ ['\n'], (insertion call task).2)

end Task

/-! ## The store `TaskMananger` -/

namespace TaskMananger

/-- The method `addTask`: `tasks.push_back(task)`. -/
def addTask (task : Task) (tasks : List Task) : List Task :=
  tasks ++ [task]

/-- The method `deleteTask`: erases the first task whose name equals `taskName`
and returns `true`, or returns `false` when the loop reaches the end. -/
def deleteTask (taskName : Str) : List Task → Bool × List Task
  | [] => (false, [])
  | task :: rest =>
    if task.getName = taskName then (true, rest)
    else ((deleteTask taskName rest).1, task :: (deleteTask taskName rest).2)

/-- The loop of `filterTasksByDeadline` over the store, from iteration `n` on.
Iteration `k` makes three calls of `mktime`: number `3 * k` on the deadline of the
task, number `3 * k + 1` on the cutoff (both rewrite their argument in place), and
number `3 * k + 2` inside `printTask` when the task passes the test.  Returns the
text printed, the flag `found`, and the tasks as the loop leaves them. -/
def filterLoop (mk : Mktime) : Nat → Tm → List Task → Str × Bool × List Task
  | _, _, [] => ([], false, [])
  | n, deadline, task :: rest =>
    if (mk (3 * n) task.getDeadline).1 ≥ (mk (3 * n + 1) deadline).1 then
      ((Task.printTask (mk (3 * n + 2))
            (task.withDeadline (mk (3 * n) task.getDeadline).2)).1
          ++ (filterLoop mk (n + 1) (mk (3 * n + 1) deadline).2 rest).1,
       true,
       (Task.printTask (mk (3 * n + 2)) (task.withDeadline (mk (3 * n) task.getDeadline).2)).2
          :: (filterLoop mk (n + 1) (mk (3 * n + 1) deadline).2 rest).2.2)
    else
      ((filterLoop mk (n + 1) (mk (3 * n + 1) deadline).2 rest).1,
       (filterLoop mk (n + 1) (mk (3 * n + 1) deadline).2 rest).2.1,
       task.withDeadline (mk (3 * n) task.getDeadline).2
          :: (filterLoop mk (n + 1) (mk (3 * n + 1) deadline).2 rest).2.2)

/-- What a call of `filterTasksByDeadline` leaves behind: the text written to
`std::cout` and the store. -/
structure FilterResult where
  cout : Str
  tasks : List Task
deriving DecidableEq

/-- The lines `filterTasksByDeadline` writes before the tasks: the title with the
cutoff as `std::put_time` prints it, the column titles and a rule. -/
def filterHeader (deadline : Tm) : Str :=
  "Filtered Tasks (on or after ".toList ++ strftime deadline ++ "):\n".toList
    ++ setw 30 "Task Name".toList ++ setw 50 "Description".toList ++ "Deadline".toList ++ ['\n']
    ++ List.replicate 100 '-' ++ ['\n']

/-- The method `filterTasksByDeadline`. -/
def filterTasksByDeadline (mk : Mktime) (deadline : Tm) (tasks : List Task) : FilterResult :=
  if tasks = [] then { cout := "There are no tasks.\n".toList, tasks := tasks }
  else
    { cout := filterHeader deadline ++ (filterLoop mk 0 deadline tasks).1
        ++ (if (filterLoop mk 0 deadline tasks).2.1 then []
            else "No tasks found with a deadline on or after the specified date.\n".toList)
      tasks := (filterLoop mk 0 deadline tasks).2.2 }

/-- The line `saveToFile` writes for one task, newline included. -/
def saveLine (task : Task) : Str :=
  if task.isImportant then
    "Important|".toList ++ task.getName ++ '|' :: task.getDescription ++ '|' :: strftime task.getDeadline
      ++ '|' :: task.getImportance ++ ['\n']
  else
    "Normal|".toList ++ task.getName ++ '|' :: task.getDescription ++ '|' :: strftime task.getDeadline
      ++ ['\n']

/-- What a call of `saveToFile` leaves behind: the content of the file when the
stream could be opened, the console output, and the store (the method only reads
the tasks: `strftime` takes a pointer to a constant `tm`). -/
structure SaveResult where
  file : Option Str
  cout : Str
  cerr : Str
  tasks : List Task
deriving DecidableEq

/-- The method `saveToFile`; `canOpen` tells whether `file.is_open()` holds. -/
def saveToFile (canOpen : Bool) (tasks : List Task) : SaveResult :=
  if canOpen then
    { file := some (tasks.map saveLine).flatten
      cout := "Successfully saved to file\n".toList
      cerr := []
      tasks := tasks }
  else
    { file := none
      cout := []
      cerr := "Error occurred during file saving: ".toList
        ++ (StdException.runtime_error "Error: can't open file for writing".toList).what ++ ['\n']
      tasks := tasks }

/-- What the body of the `while` loop of `loadFromFile` does with one line: an
exception escaping from `std::stoi`, or the task added (if any) together with the
text written to `std::cerr`. -/
def loadLine (line : Str) : Except StdException (Option Task × Str) :=
  match getline '|' line with
  | none => .ok (none, [])
  | some (taskType, iss1) =>
    match getline '|' iss1 with
    | none => .ok (none, [])
    | some (name, iss2) =>
      match getline '|' iss2 with
      | none => .ok (none, [])
      | some (description, iss3) =>
        match getline '|' iss3 with
        | none => .ok (none, [])
        | some (deadlineStr, iss4) =>
          match strptime deadlineStr with
          | some deadline =>
            if taskType = "Important".toList then
              match getline '|' iss4 with
              | some (importanceStr, _) =>
                match stoi importanceStr with
                | .ok priority => .ok (some (Task.ImportantTask name description deadline priority), [])
                | .error e => .error e
              | none => .ok (none, [])
            else .ok (some (Task.NormalTask name description deadline), [])
          | none => .ok (none, "Error parsing date: ".toList ++ deadlineStr ++ ['\n'])

/-- What a call of `loadFromFile` leaves behind: the store and the console
output. -/
structure LoadResult where
  tasks : List Task
  cout : Str
  cerr : Str
deriving DecidableEq

/-- The `while (std::getline(file, line))` loop of `loadFromFile` over the lines
still unread, from the store and the `std::cerr` text reached so far.  An
exception leaves the loop for the `catch` block, which reports it. -/
def loadLoop : List Str → List Task → Str → LoadResult
  | [], tasks, cerr =>
    { tasks := tasks, cout := "Successfully loaded from file\n".toList, cerr := cerr }
  | line :: rest, tasks, cerr =>
    match loadLine line with
    | .ok (some task, err) => loadLoop rest (addTask task tasks) (cerr ++ err)
    | .ok (none, err) => loadLoop rest tasks (cerr ++ err)
    | .error e =>
      { tasks := tasks, cout := []
        cerr := cerr ++ "Error occurred during file loading: ".toList ++ e.what ++ ['\n'] }

/-- The method `loadFromFile`; `file` is the content of the file, `none` when it
cannot be opened for reading. -/
def loadFromFile (file : Option Str) (tasks : List Task) : LoadResult :=
  match file with
  | none =>
    { tasks := tasks, cout := []
      cerr := "Error occurred during file loading: ".toList
        ++ (StdException.runtime_error "Error: can't open file for reading".toList).what ++ ['\n'] }
  | some content => loadLoop (getlines '\n' content) tasks []

/-- The comparator given to `tasks.sort`: `true` when `a` must come before `b`.
The priorities are read back with `std::stoi` from `getImportance()`; that call
cannot throw on the decimal text of an `int` (see `stoi_to_string`), so the last
case of the inner match is never reached. -/
def sortByImportanceComp (a b : Task) : Bool :=
  if a.isImportant ∧ b.isImportant then
    match stoi a.getImportance, stoi b.getImportance with
    | .ok priorityA, .ok priorityB => decide (priorityA.val > priorityB.val)
    | _, _ => false
  else if a.isImportant then true
  else if b.isImportant then false
  else false

/-- The member `std::list::sort(comp)`: a stable merge sort, where merging takes
the element of the right run first only when `comp` puts it before the element of
the left run. -/
def listSort {α : Type} (comp : α → α → Bool) (l : List α) : List α :=
  l.mergeSort fun a b => !comp b a

/-- The method `sortByImportance`: the sorted store and the text written to
`std::cout`. -/
def sortByImportance (tasks : List Task) : List Task × Str :=
  (listSort sortByImportanceComp tasks, "Tasks sorted by importance.\n".toList)

/-- The row `printTasks` writes for one task: name, description and deadline in
left-aligned columns of 30, 50 and 20, then the importance and a newline; `call`
is what the call of `mktime` inside `getDeadlineString` does. -/
def printRow (call : MktimeCall) (task : Task) : Str :=
  setw 30 task.getName ++ setw 50 task.getDescription
    ++ setw 20 (Task.getDeadlineString call task).1 ++ task.getImportance ++ ['\n']

/-- The loop of `printTasks` over the store: the rows written and the tasks as
the loop leaves them.  The row of the task at position `k` makes call number `k`
of `mktime`; the argument counts the tasks already listed. -/
def printTasksLoop (mk : Mktime) : Nat → List Task → Str × List Task
  | _, [] => ([], [])
  | n, task :: rest =>
    (printRow (mk n) task ++ (printTasksLoop mk (n + 1) rest).1,
     (Task.getDeadlineString (mk n) task).2 :: (printTasksLoop mk (n + 1) rest).2)

/-- The method `printTasks`: the text written to `std::cout` and the store as the
call leaves it. -/
def printTasks (mk : Mktime) (tasks : List Task) : Str × List Task :=
  if tasks = [] then ("There are no tasks.\n".toList, tasks)
  else
    (setw 30 "Task Name".toList ++ setw 50 "Description".toList ++ setw 20 "Deadline".toList
        ++ "Importance".toList ++ ['\n'] ++ List.replicate 110 '-' ++ ['\n']
        ++ (printTasksLoop mk 0 tasks).1,
     (printTasksLoop mk 0 tasks).2)

end TaskMananger

/-! ## Predicates used to state the properties -/

/-- A date `strptime` can deliver: year 0-9999, month 0-11, day 1-31. -/
def Tm.inRange (t : Tm) : Prop :=
  0 ≤ t.tm_year + 1900 ∧ t.tm_year + 1900 ≤ 9999 ∧ 0 ≤ t.tm_mon ∧ t.tm_mon ≤ 11 ∧
    1 ≤ t.tm_mday ∧ t.tm_mday ≤ 31

instance (t : Tm) : Decidable t.inRange := by
  unfold Tm.inRange
  infer_instance

/-- A text that fits in one field of a line of the file: it holds neither the
field delimiter nor a line break. -/
def isField (s : Str) : Prop :=
  '|' ∉ s ∧ '\n' ∉ s

instance (s : Str) : Decidable (isField s) := by
  unfold isField
  infer_instance

/-- A task the file format can hold: name and description fit in a field and the
deadline is a date `strptime` can deliver. -/
def Task.persistable (t : Task) : Prop :=
  isField t.getName ∧ isField t.getDescription ∧ t.getDeadline.inRange

instance (t : Task) : Decidable t.persistable := by
  unfold Task.persistable
  infer_instance

/-- The console and store a load leaves when every line was accepted. -/
def TaskMananger.loaded (tasks : List Task) : TaskMananger.LoadResult :=
  { tasks := tasks, cout := "Successfully loaded from file\n".toList, cerr := [] }

/-- The line `saveToFile` writes for a task, without its terminating newline:
a record of the file format. -/
def TaskMananger.recordOf (task : Task) : Str :=
  (TaskMananger.saveLine task).dropLast

/-- The `priority` member of an `ImportantTask`; a `NormalTask` has none. -/
def Task.priority? : Task → Option CInt
  | Task.NormalTask _ _ _ => none
  | Task.ImportantTask _ _ _ p => some p

/-- A rank summing up the comparator of `sortByImportance`: the priority of an
`ImportantTask`, and a value below every `int` for a `NormalTask`. -/
def Task.sortKey : Task → Int
  | Task.NormalTask _ _ _ => -2147483649
  | Task.ImportantTask _ _ _ p => p.val

/-- A date of the calendar that the date parsing of the program can deliver. -/
def Tm.isDate (t : Tm) : Prop :=
  t.valid ∧ t.inRange

instance (t : Tm) : Decidable t.isDate := by
  unfold Tm.isDate
  infer_instance

/-- A `mktime` that reads every date of the calendar as its own day: each call
succeeds and leaves the date members as they are, and the values returned are
in the order of the days.  A process in UTC has such a `mktime`
(`mktimeUTC_readsDates`); a process in a zone whose winter time lies behind its
standard time has not (there a call can write back the day before). -/
def Mktime.readsDates (mk : Mktime) : Prop :=
  (∀ n t, Tm.isDate t → (mk n t).2 = t ∧ (mk n t).1 ≠ -1) ∧
  ∀ n m a b, Tm.isDate a → Tm.isDate b → ((mk m b).1 ≤ (mk n a).1 ↔ b.le a = true)

/-- The text `printTask` writes for a task whose deadline `mktime` accepts and
leaves as it is: the tag of the class, the row of name, description and date, an
empty line, and for an Important task the line of its priority. -/
def TaskMananger.taskText : Task → Str
  | Task.NormalTask name description deadline =>
    "[Normal] ".toList ++ (setw 30 name ++ setw 50 description ++ strftime deadline ++ ['\n'])
      ++ ['\n']
  | Task.ImportantTask name description deadline priority =>
    "[Important] ".toList ++ (setw 30 name ++ setw 50 description ++ strftime deadline ++ ['\n'])
      ++ ['\n'] ++ "Priority: ".toList ++ (toString priority.val).toList ++ ['\n']

/-- The store of the scenarios of the specification: a Normal task "Report" due
2025-01-10 and an Important task "Launch" due 2025-02-01 with priority 9. -/
def scenarioStore : List Task :=
  [Task.NormalTask "Report".toList "Write report".toList ⟨10, 0, 125⟩,
   Task.ImportantTask "Launch".toList "Ship v1".toList ⟨1, 1, 125⟩ (CInt.ofInt 9)]

/-- A line of kind `Important` with name, description and date but no priority
field (without its newline). -/
def TaskMananger.recordWithoutPriority (name description : Str) (deadline : Tm) : Str :=
  "Important|".toList ++ name ++ '|' :: description ++ '|' :: strftime deadline

/-- The tasks the reading loop of `loadFromFile` adds for a list of lines, in line
order: the task of each line that yields one, up to the first line on which
`std::stoi` throws. -/
def TaskMananger.parsedTasks : List Str → List Task
  | [] => []
  | line :: rest =>
    match TaskMananger.loadLine line with
    | .ok (some task, _) => task :: TaskMananger.parsedTasks rest
    | .ok (none, _) => TaskMananger.parsedTasks rest
    | .error _ => []

/-- The record of a task with the date as `strftime` prints it:
`Normal|name|description|date` or `Important|name|description|date|priority`, the
priority in decimal. -/
def TaskMananger.recordText : Task → Str
  | Task.NormalTask name description deadline =>
    "Normal".toList ++ ['|'] ++ name ++ ['|'] ++ description ++ ['|'] ++ strftime deadline
  | Task.ImportantTask name description deadline priority =>
    "Important".toList ++ ['|'] ++ name ++ ['|'] ++ description ++ ['|'] ++ strftime deadline
      ++ ['|'] ++ (toString priority.val).toList

/-- A date written `YYYY-MM-DD`: four digits of year, two of month, two of day. -/
def isoDate (t : Tm) : Str :=
  [digitChar ((t.tm_year + 1900).toNat / 1000 % 10), digitChar ((t.tm_year + 1900).toNat / 100 % 10),
   digitChar ((t.tm_year + 1900).toNat / 10 % 10), digitChar ((t.tm_year + 1900).toNat % 10), '-',
   digitChar ((t.tm_mon + 1).toNat / 10 % 10), digitChar ((t.tm_mon + 1).toNat % 10), '-',
   digitChar (t.tm_mday.toNat / 10 % 10), digitChar (t.tm_mday.toNat % 10)]

/-- The record of a task in the words of the file format:
`Normal|name|description|YYYY-MM-DD` or
`Important|name|description|YYYY-MM-DD|priority`, the priority in decimal. -/
def TaskMananger.isoRecord : Task → Str
  | Task.NormalTask name description deadline =>
    "Normal".toList ++ ['|'] ++ name ++ ['|'] ++ description ++ ['|'] ++ isoDate deadline
  | Task.ImportantTask name description deadline priority =>
    "Important".toList ++ ['|'] ++ name ++ ['|'] ++ description ++ ['|'] ++ isoDate deadline
      ++ ['|'] ++ (toString priority.val).toList

/-! # Properties -/

/-! ## Decimal text -/

theorem isdigit_digitChar (d : Nat) : isdigit (digitChar d) = true := by
  unfold digitChar
  split <;> decide

theorem digitValue_digitChar (d : Nat) (h : d < 10) : digitValue (digitChar d) = d := by
  interval_cases d <;> rfl

theorem natDigitsAux_acc (fuel : Nat) : ∀ (n : Nat) (acc : Str),
    natDigitsAux fuel n acc = natDigitsAux fuel n [] ++ acc := by
  induction fuel with
  | zero => intro n acc; simp [natDigitsAux]
  | succ f ih =>
    intro n acc
    simp only [natDigitsAux]
    split
    · simp
    · rw [ih _ (_ :: acc), ih _ [_]]
      simp

theorem natDigitsAux_fuel (f1 : Nat) : ∀ (f2 n : Nat) (acc : Str), n < f1 → n < f2 →
    natDigitsAux f1 n acc = natDigitsAux f2 n acc := by
  induction f1 with
  | zero => intro f2 n acc h; omega
  | succ f ih =>
    intro f2 n acc h1 h2
    cases f2 with
    | zero => omega
    | succ g =>
      simp only [natDigitsAux]
      split
      · rfl
      · exact ih g _ _ (by omega) (by omega)

theorem natDigits_lt (n : Nat) (h : n < 10) : natDigits n = [digitChar n] := by
  have h0 : n / 10 = 0 := by omega
  have h1 : n % 10 = n := by omega
  simp [natDigits, natDigitsAux, h0, h1]

theorem natDigits_ge (n : Nat) (h : 10 ≤ n) :
    natDigits n = natDigits (n / 10) ++ [digitChar (n % 10)] := by
  have h0 : n / 10 ≠ 0 := by omega
  unfold natDigits
  conv_lhs => rw [natDigitsAux]
  rw [if_neg h0, natDigitsAux_acc, natDigitsAux_fuel n (n / 10 + 1) (n / 10) [] (by omega) (by omega)]

theorem natDigits_isdigit (n : Nat) : ∀ c ∈ natDigits n, isdigit c = true := by
  induction n using Nat.strong_induction_on with
  | _ n ih =>
    by_cases h : n < 10
    · rw [natDigits_lt n h]
      intro c hc
      simp only [List.mem_singleton] at hc
      rw [hc]
      exact isdigit_digitChar n
    · rw [natDigits_ge n (by omega)]
      intro c hc
      rcases List.mem_append.mp hc with hc | hc
      · exact ih (n / 10) (by omega) c hc
      · simp only [List.mem_singleton] at hc
        rw [hc]
        exact isdigit_digitChar _

theorem natDigits_ne_nil (n : Nat) : natDigits n ≠ [] := by
  by_cases h : n < 10
  · rw [natDigits_lt n h]; simp
  · rw [natDigits_ge n (by omega)]; simp

theorem digitsValue_append (ds : Str) (c : Char) :
    digitsValue (ds ++ [c]) = digitsValue ds * 10 + digitValue c := by
  simp [digitsValue, List.foldl_append]

theorem digitsValue_natDigits (n : Nat) : digitsValue (natDigits n) = n := by
  induction n using Nat.strong_induction_on with
  | _ n ih =>
    by_cases h : n < 10
    · rw [natDigits_lt n h]
      simp [digitsValue, digitValue_digitChar n h]
    · rw [natDigits_ge n (by omega), digitsValue_append, ih (n / 10) (by omega),
        digitValue_digitChar _ (Nat.mod_lt _ (by decide))]
      omega

theorem takeWhile_eq_self {α : Type} (p : α → Bool) (l : List α) (h : ∀ x ∈ l, p x = true) :
    l.takeWhile p = l := by
  induction l with
  | nil => rfl
  | cons a t ih =>
    have ha := h a (List.mem_cons_self a t)
    simp only [List.takeWhile, ha]
    rw [ih (fun x hx => h x (List.mem_cons_of_mem a hx))]

theorem isdigit_not_isspace (c : Char) (h : isdigit c = true) : isspace c = false := by
  have h1 : 48 ≤ c.toNat := by
    simp only [isdigit, Bool.and_eq_true, decide_eq_true_eq] at h
    exact h.1
  cases hs : isspace c with
  | false => rfl
  | true =>
    simp only [isspace, Bool.or_eq_true, decide_eq_true_eq] at hs
    rcases hs with ((((hs | hs) | hs) | hs) | hs) | hs <;> (rw [hs] at h1; revert h1; decide)

theorem isdigit_ne (c d : Char) (h : isdigit c = true) (hd : isdigit d = false) : c ≠ d := by
  intro e
  rw [e] at h
  rw [h] at hd
  cases hd

/-- The text `std::to_string` gives for an `int` is read back by `std::stoi` as
the same `int`, without an exception. -/
theorem stoi_to_string (p : CInt) : stoi (to_string p.val) = .ok p := by
  obtain ⟨v, lo, hi⟩ := p
  have hne := natDigits_ne_nil v.natAbs
  have hdig := natDigits_isdigit v.natAbs
  have hval := digitsValue_natDigits v.natAbs
  obtain ⟨c, rest, hcr⟩ := List.exists_cons_of_ne_nil hne
  have hc : isdigit c = true := hdig c (by rw [hcr]; exact List.mem_cons_self c rest)
  have hsp : isspace c = false := isdigit_not_isspace c hc
  have hm : c ≠ '-' := isdigit_ne c '-' hc (by decide)
  have hp : c ≠ '+' := isdigit_ne c '+' hc (by decide)
  have htw : (c :: rest).takeWhile isdigit = c :: rest :=
    takeWhile_eq_self isdigit _ (by rw [← hcr]; exact hdig)
  by_cases hneg : v < 0
  · have hs : isspace '-' = false := by decide
    have hv : -((digitsValue (c :: rest) : Nat) : Int) = v := by rw [← hcr, hval]; omega
    simp only [stoi, to_string, hneg, if_true, hcr, List.dropWhile, hs, List.head?,
      true_or, List.tail, htw, decide_True]
    simp [hv, lo, hi]
  · have hv : ((digitsValue (c :: rest) : Nat) : Int) = v := by rw [← hcr, hval]; omega
    simp only [stoi, to_string, hneg, if_false, hcr, List.dropWhile, hsp, List.head?,
      Option.some.injEq, hm, hp, or_self, htw, decide_False]
    simp [hv, lo, hi]

/-! ## `std::getline` -/

theorem getline_field (d : Char) (rest : Str) : ∀ (f : Str), d ∉ f →
    getline d (f ++ d :: rest) = some (f, rest) := by
  intro f
  induction f with
  | nil => intro _; simp [getline]
  | cons c cs ih =>
    intro h
    have hc : c ≠ d := fun e => h (by rw [e]; exact List.mem_cons_self d cs)
    have hcs : d ∉ cs := fun e => h (List.mem_cons_of_mem c e)
    simp [getline, hc, ih hcs]

theorem getline_last (d : Char) : ∀ (f : Str), d ∉ f → f ≠ [] → getline d f = some (f, []) := by
  intro f
  induction f with
  | nil => intro _ h; exact absurd rfl h
  | cons c cs ih =>
    intro h _
    have hc : c ≠ d := fun e => h (by rw [e]; exact List.mem_cons_self d cs)
    have hcs : d ∉ cs := fun e => h (List.mem_cons_of_mem c e)
    cases cs with
    | nil => simp [getline, hc]
    | cons b bs => rw [getline, if_neg hc, ih hcs (by simp)]

theorem getlines_line (d : Char) (rest : Str) : ∀ (l : Str), d ∉ l →
    getlines d (l ++ d :: rest) = l :: getlines d rest := by
  intro l
  induction l with
  | nil => intro _; simp [getlines]
  | cons c cs ih =>
    intro h
    have hc : c ≠ d := fun e => h (by rw [e]; exact List.mem_cons_self d cs)
    have hcs : d ∉ cs := fun e => h (List.mem_cons_of_mem c e)
    simp [getlines, hc, ih hcs]

/-- The list `getlines` is what repeated calls of `getline` yield. -/
theorem getlines_eq_getline (d : Char) : ∀ (s : Str),
    getlines d s = match getline d s with
      | none => []
      | some (l, rest) => l :: getlines d rest := by
  intro s
  induction s with
  | nil => simp [getlines, getline]
  | cons c cs ih =>
    by_cases hc : c = d
    · simp [getlines, getline, hc]
    · simp only [getlines, getline, hc, if_false]
      rw [ih]
      cases getline d cs with
      | none => simp [getlines]
      | some p => simp

/-! ## `strptime` after `strftime` -/

theorem foldl_digit_ge (ds : Str) : ∀ (x : Nat),
    x ≤ ds.foldl (fun acc c => acc * 10 + digitValue c) x := by
  induction ds with
  | nil => intro x; simp
  | cons d t ih =>
    intro x
    simp only [List.foldl]
    have := ih (x * 10 + digitValue d)
    omega

theorem getNumberLoop_digits (hi : Nat) : ∀ (ds : Str) (n val : Nat) (c : Char) (rest : Str),
    (∀ d ∈ ds, isdigit d = true) → ds.length < n →
    (∀ d ∈ rest.head?, isdigit d = false) →
    ds.foldl (fun acc c => acc * 10 + digitValue c) (val * 10 + digitValue c) ≤ hi →
    getNumberLoop hi n val c (ds ++ rest)
      = (ds.foldl (fun acc c => acc * 10 + digitValue c) (val * 10 + digitValue c), rest) := by
  intro ds
  induction ds with
  | nil =>
    intro n val c rest _ hn hrest _
    cases n with
    | zero => simp [getNumberLoop]
    | succ m =>
      simp only [List.nil_append, List.foldl, getNumberLoop]
      split
      · cases rest with
        | nil => rfl
        | cons r rs =>
          have hr : isdigit r = false := hrest r (by simp)
          simp [hr]
      · rfl
  | cons d t ih =>
    intro n val c rest hd hn hrest hle
    cases n with
    | zero => simp at hn
    | succ m =>
      have hm : t.length < m := by simpa using hn
      have hdd : isdigit d = true := hd d (List.mem_cons_self d t)
      have hge := foldl_digit_ge t ((val * 10 + digitValue c) * 10 + digitValue d)
      simp only [List.foldl] at hle
      have hcond : 0 < m ∧ (val * 10 + digitValue c) * 10 ≤ hi := ⟨by omega, by omega⟩
      simp only [List.cons_append, getNumberLoop, hcond, and_self, if_true, hdd, List.foldl]
      exact ih m (val * 10 + digitValue c) d rest
        (fun x hx => hd x (List.mem_cons_of_mem d hx)) hm hrest hle

theorem getNumber_digits (lo hi n : Nat) (ds rest : Str) (hne : ds ≠ [])
    (hd : ∀ d ∈ ds, isdigit d = true) (hlen : ds.length ≤ n)
    (hrest : ∀ d ∈ rest.head?, isdigit d = false)
    (hlo : lo ≤ digitsValue ds) (hhi : digitsValue ds ≤ hi) :
    getNumber lo hi n (ds ++ rest) = some (digitsValue ds, rest) := by
  obtain ⟨c, t, hct⟩ := List.exists_cons_of_ne_nil hne
  subst hct
  have hc : isdigit c = true := hd c (List.mem_cons_self c t)
  have hsp : isspace c = false := isdigit_not_isspace c hc
  have hv : digitsValue (c :: t)
      = t.foldl (fun acc c => acc * 10 + digitValue c) (0 * 10 + digitValue c) := by
    simp [digitsValue]
  have hloop := getNumberLoop_digits hi t n 0 c rest
    (fun x hx => hd x (List.mem_cons_of_mem c hx)) (by simpa using hlen) hrest (by rw [← hv]; exact hhi)
  rw [← hv] at hloop
  have hno : ¬ (digitsValue (c :: t) < lo ∨ hi < digitsValue (c :: t)) := by omega
  unfold getNumber
  simp only [List.cons_append, List.dropWhile, hsp, hc, if_true]
  rw [show t.append rest = t ++ rest from rfl, hloop]
  simp only [hno, if_false]

theorem natDigits_length (n : Nat) (h : n ≤ 9999) : (natDigits n).length ≤ 4 := by
  by_cases h1 : n < 10
  · rw [natDigits_lt n h1]; simp
  · rw [natDigits_ge n (by omega)]
    by_cases h2 : n / 10 < 10
    · rw [natDigits_lt _ h2]; simp
    · rw [natDigits_ge _ (by omega)]
      by_cases h3 : n / 10 / 10 < 10
      · rw [natDigits_lt _ h3]; simp
      · rw [natDigits_ge _ (by omega), natDigits_lt (n / 10 / 10 / 10) (by omega)]; simp

theorem fmtNumber_one (v : Int) (h : 0 ≤ v) : fmtNumber 1 v = natDigits v.natAbs := by
  have hs : ¬ v < 0 := by omega
  have hl : 0 < (natDigits v.natAbs).length := List.length_pos.mpr (natDigits_ne_nil _)
  have h0 : 1 - (natDigits v.natAbs).length = 0 := by omega
  simp [fmtNumber, hs, h0]

theorem fmtNumber_isdigit (w : Nat) (v : Int) (h : 0 ≤ v) : ∀ c ∈ fmtNumber w v, isdigit c = true := by
  have hs : ¬ v < 0 := by omega
  intro c hc
  simp only [fmtNumber, hs, if_false, List.nil_append, List.mem_append, List.mem_replicate] at hc
  rcases hc with hc | hc
  · rw [hc.2]; decide
  · exact natDigits_isdigit _ c hc

theorem getNumber_month (k : Nat) (h1 : 1 ≤ k) (h2 : k ≤ 12) (rest : Str) :
    getNumber 1 12 2 (fmtNumber 2 (k : Int) ++ rest) = some (k, rest) := by
  interval_cases k <;> rfl

theorem getNumber_day (k : Nat) (h1 : 1 ≤ k) (h2 : k ≤ 31) (rest : Str) :
    getNumber 1 31 2 (fmtNumber 2 (k : Int) ++ rest) = some (k, rest) := by
  interval_cases k <;> rfl

theorem strftime_chars (t : Tm) (h : t.inRange) : ∀ c ∈ strftime t, isdigit c = true ∨ c = '-' := by
  obtain ⟨hy0, _, hm0, _, hd1, _⟩ := h
  intro c hc
  simp only [strftime, List.mem_append, List.mem_cons] at hc
  rcases hc with (hc | hc | hc) | hc | hc
  · exact Or.inl (fmtNumber_isdigit _ _ hy0 c hc)
  · exact Or.inr hc
  · exact Or.inl (fmtNumber_isdigit _ _ (by omega) c hc)
  · exact Or.inr hc
  · exact Or.inl (fmtNumber_isdigit _ _ (by omega) c hc)

theorem strftime_not_mem (t : Tm) (h : t.inRange) (d : Char) (hd : isdigit d = false)
    (hm : d ≠ '-') : d ∉ strftime t := by
  intro hmem
  rcases strftime_chars t h d hmem with hc | hc
  · rw [hd] at hc; cases hc
  · exact hm hc

theorem strftime_ne_nil (t : Tm) : strftime t ≠ [] := by
  simp [strftime]

/-- Parsing the text `strftime` gives for a date in range yields that date. -/
theorem strptime_strftime (t : Tm) (h : t.inRange) : strptime (strftime t) = some t := by
  have hnul : (strftime t).takeWhile (fun c => decide (c ≠ Char.ofNat 0)) = strftime t := by
    apply takeWhile_eq_self
    intro c hc
    have : c ≠ Char.ofNat 0 := by
      intro e
      rw [e] at hc
      exact strftime_not_mem t h _ (by decide) (by decide) hc
    simpa using this
  obtain ⟨hy0, hy1, hm0, hm1, hd0, hd1⟩ := h
  obtain ⟨d, m, y⟩ := t
  simp only at hy0 hy1 hm0 hm1 hd0 hd1
  have hY : getNumber 0 9999 4 (natDigits (y + 1900).natAbs
      ++ '-' :: (fmtNumber 2 (m + 1) ++ '-' :: fmtNumber 2 d))
      = some ((y + 1900).natAbs, '-' :: (fmtNumber 2 (m + 1) ++ '-' :: fmtNumber 2 d)) := by
    have := getNumber_digits 0 9999 4 (natDigits (y + 1900).natAbs)
      ('-' :: (fmtNumber 2 (m + 1) ++ '-' :: fmtNumber 2 d)) (natDigits_ne_nil _)
      (natDigits_isdigit _) (natDigits_length _ (by omega))
      (by intro x hx; simp only [List.head?, Option.mem_def, Option.some.injEq] at hx; rw [← hx]; decide)
      (Nat.zero_le _) (by rw [digitsValue_natDigits]; omega)
    rw [digitsValue_natDigits] at this
    exact this
  have hM : getNumber 1 12 2 (fmtNumber 2 (m + 1) ++ '-' :: fmtNumber 2 d)
      = some ((m + 1).natAbs, '-' :: fmtNumber 2 d) := by
    have := getNumber_month (m + 1).natAbs (by omega) (by omega) ('-' :: fmtNumber 2 d)
    rwa [Int.natAbs_of_nonneg (by omega)] at this
  have hD : getNumber 1 31 2 (fmtNumber 2 d ++ []) = some (d.natAbs, []) := by
    have := getNumber_day d.natAbs (by omega) (by omega) []
    rwa [Int.natAbs_of_nonneg (by omega)] at this
  rw [List.append_nil] at hD
  have hs : strftime ⟨d, m, y⟩ = natDigits (y + 1900).natAbs
      ++ '-' :: (fmtNumber 2 (m + 1) ++ '-' :: fmtNumber 2 d) := by
    simp [strftime, fmtNumber_one _ hy0]
  unfold strptime
  rw [hnul, hs, hY]
  simp only [hM, hD]
  congr 1
  simp only [Tm.mk.injEq]
  omega

/-! ## Reading back what `saveToFile` wrote -/

namespace TaskMananger

theorem loadLine_four (k n d ds : Str) (hk : '|' ∉ k) (hn : '|' ∉ n) (hd : '|' ∉ d)
    (hds : '|' ∉ ds) (hne : ds ≠ []) :
    loadLine (k ++ '|' :: (n ++ '|' :: (d ++ '|' :: ds)))
      = match strptime ds with
        | some t =>
          if k = "Important".toList then .ok (none, []) else .ok (some (Task.NormalTask n d t), [])
        | none => .ok (none, "Error parsing date: ".toList ++ ds ++ ['\n']) := by
  unfold loadLine
  rw [getline_field '|' _ k hk]
  simp only
  rw [getline_field '|' _ n hn]
  simp only
  rw [getline_field '|' _ d hd]
  simp only
  rw [getline_last '|' ds hds hne]
  simp only [getline]

theorem loadLine_five (k n d ds ps : Str) (hk : '|' ∉ k) (hn : '|' ∉ n) (hd : '|' ∉ d)
    (hds : '|' ∉ ds) (hps : '|' ∉ ps) (hne : ps ≠ []) :
    loadLine (k ++ '|' :: (n ++ '|' :: (d ++ '|' :: (ds ++ '|' :: ps))))
      = match strptime ds with
        | some t =>
          if k = "Important".toList then
            match stoi ps with
            | .ok p => .ok (some (Task.ImportantTask n d t p), [])
            | .error e => .error e
          else .ok (some (Task.NormalTask n d t), [])
        | none => .ok (none, "Error parsing date: ".toList ++ ds ++ ['\n']) := by
  unfold loadLine
  rw [getline_field '|' _ k hk]
  simp only
  rw [getline_field '|' _ n hn]
  simp only
  rw [getline_field '|' _ d hd]
  simp only
  rw [getline_field '|' _ ds hds]
  simp only
  rw [getline_last '|' ps hps hne]

theorem to_string_chars (v : Int) : ∀ c ∈ to_string v, isdigit c = true ∨ c = '-' := by
  intro c hc
  unfold to_string at hc
  split at hc
  · rcases List.mem_cons.mp hc with h | h
    · exact Or.inr h
    · exact Or.inl (natDigits_isdigit _ c h)
  · exact Or.inl (natDigits_isdigit _ c hc)

theorem to_string_ne_nil (v : Int) : to_string v ≠ [] := by
  unfold to_string
  split
  · simp
  · exact natDigits_ne_nil _

theorem to_string_not_mem (v : Int) (d : Char) (hd : isdigit d = false) (hm : d ≠ '-') :
    d ∉ to_string v := by
  intro hmem
  rcases to_string_chars v d hmem with hc | hc
  · rw [hd] at hc; cases hc
  · exact hm hc

theorem saveLine_normal (n d : Str) (t : Tm) :
    saveLine (Task.NormalTask n d t)
      = ("Normal".toList ++ '|' :: (n ++ '|' :: (d ++ '|' :: strftime t))) ++ ['\n'] := by
  simp [saveLine, Task.isImportant, Task.getName, Task.getDescription, Task.getDeadline]

theorem saveLine_important (n d : Str) (t : Tm) (p : CInt) :
    saveLine (Task.ImportantTask n d t p)
      = ("Important".toList ++ '|' :: (n ++ '|' :: (d ++ '|' :: (strftime t ++ '|' :: to_string p.val))))
        ++ ['\n'] := by
  simp [saveLine, Task.isImportant, Task.getName, Task.getDescription, Task.getDeadline,
    Task.getImportance]

theorem recordOf_normal (n d : Str) (t : Tm) :
    recordOf (Task.NormalTask n d t)
      = "Normal".toList ++ '|' :: (n ++ '|' :: (d ++ '|' :: strftime t)) := by
  rw [recordOf, saveLine_normal, List.dropLast_concat]

theorem recordOf_important (n d : Str) (t : Tm) (p : CInt) :
    recordOf (Task.ImportantTask n d t p)
      = "Important".toList ++ '|' :: (n ++ '|' :: (d ++ '|' :: (strftime t ++ '|' :: to_string p.val))) := by
  rw [recordOf, saveLine_important, List.dropLast_concat]

theorem saveLine_eq (task : Task) : saveLine task = recordOf task ++ ['\n'] := by
  cases task with
  | NormalTask n d t => rw [recordOf_normal, saveLine_normal]
  | ImportantTask n d t p => rw [recordOf_important, saveLine_important]

/-- A record written for a persistable task is parsed back into that task. -/
theorem loadLine_recordOf (task : Task) (h : task.persistable) :
    loadLine (recordOf task) = .ok (some task, []) := by
  obtain ⟨⟨hn, _⟩, ⟨hd, _⟩, ht⟩ := h
  have hbar := fun t ht => strftime_not_mem t ht '|' (by decide) (by decide)
  cases task with
  | NormalTask n d t =>
    simp only [Task.getName, Task.getDescription, Task.getDeadline] at hn hd ht
    rw [recordOf_normal, loadLine_four _ n d _ (by decide) hn hd (hbar t ht) (strftime_ne_nil t),
      strptime_strftime t ht]
    rfl
  | ImportantTask n d t p =>
    simp only [Task.getName, Task.getDescription, Task.getDeadline] at hn hd ht
    rw [recordOf_important, loadLine_five _ n d _ _ (by decide) hn hd (hbar t ht)
      (to_string_not_mem _ '|' (by decide) (by decide)) (to_string_ne_nil _),
      strptime_strftime t ht]
    simp only [if_true, stoi_to_string]

theorem recordOf_no_newline (task : Task) (h : task.persistable) : '\n' ∉ recordOf task := by
  obtain ⟨⟨_, hn⟩, ⟨_, hd⟩, ht⟩ := h
  have hnl := strftime_not_mem _ ht '\n' (by decide) (by decide)
  cases task with
  | NormalTask n d t =>
    simp only [Task.getName, Task.getDescription, Task.getDeadline] at hn hd hnl
    rw [recordOf_normal]
    simp only [List.mem_append, List.mem_cons, not_or]
    exact ⟨by decide, by decide, hn, by decide, hd, by decide, hnl⟩
  | ImportantTask n d t p =>
    simp only [Task.getName, Task.getDescription, Task.getDeadline] at hn hd hnl
    rw [recordOf_important]
    simp only [List.mem_append, List.mem_cons, not_or]
    exact ⟨by decide, by decide, hn, by decide, hd, by decide, hnl, by decide,
      to_string_not_mem _ '\n' (by decide) (by decide)⟩

/-- Loading the lines written for persistable tasks appends exactly those tasks,
whatever follows them in the file. -/
theorem loadLoop_saved (rest : Str) : ∀ (saved acc : List Task) (cerr : Str),
    (∀ t ∈ saved, t.persistable) →
    loadLoop (getlines '\n' ((saved.map saveLine).flatten ++ rest)) acc cerr
      = loadLoop (getlines '\n' rest) (acc ++ saved) cerr := by
  intro saved
  induction saved with
  | nil => intro acc cerr _; simp
  | cons t ts ih =>
    intro acc cerr h
    have ht := h t (List.mem_cons_self t ts)
    have hts : ∀ x ∈ ts, x.persistable := fun x hx => h x (List.mem_cons_of_mem t hx)
    rw [List.map_cons, List.flatten_cons, saveLine_eq t, List.append_assoc, List.append_assoc,
      List.singleton_append, getlines_line '\n' _ _ (recordOf_no_newline t ht)]
    simp only [loadLoop, loadLine_recordOf t ht, List.append_nil]
    rw [ih _ _ hts]
    simp [addTask]

end TaskMananger

/-! ## `sortByImportance` -/

namespace TaskMananger

theorem sortByImportanceComp_eq (a b : Task) :
    sortByImportanceComp a b = decide (b.sortKey < a.sortKey) := by
  cases a with
  | NormalTask n d t =>
    cases b with
    | NormalTask n2 d2 t2 => simp [sortByImportanceComp, Task.isImportant, Task.sortKey]
    | ImportantTask n2 d2 t2 p2 =>
      have := p2.lo
      simp only [sortByImportanceComp, Task.isImportant, Task.sortKey]
      simp
      omega
  | ImportantTask n d t p =>
    cases b with
    | NormalTask n2 d2 t2 =>
      have := p.lo
      simp only [sortByImportanceComp, Task.isImportant, Task.sortKey]
      simp
      omega
    | ImportantTask n2 d2 t2 p2 =>
      simp [sortByImportanceComp, Task.isImportant, Task.sortKey, Task.getImportance, stoi_to_string]

theorem sortLe_iff (a b : Task) : (!sortByImportanceComp b a) = true ↔ b.sortKey ≤ a.sortKey := by
  rw [sortByImportanceComp_eq]
  simp

theorem sortLe_trans (a b c : Task) (h1 : (!sortByImportanceComp b a) = true)
    (h2 : (!sortByImportanceComp c b) = true) : (!sortByImportanceComp c a) = true := by
  rw [sortLe_iff] at *
  omega

theorem sortLe_total (a b : Task) :
    ((!sortByImportanceComp b a) || (!sortByImportanceComp a b)) = true := by
  rw [Bool.or_eq_true, sortLe_iff, sortLe_iff]
  omega

theorem sortByImportance_pairwise (tasks : List Task) :
    (sortByImportance tasks).1.Pairwise fun a b => b.sortKey ≤ a.sortKey := by
  have h := @List.sorted_mergeSort Task (fun a b => !sortByImportanceComp b a)
    sortLe_trans sortLe_total tasks
  exact h.imp (fun {a b} hab => (sortLe_iff a b).mp hab)

theorem sortByImportance_perm (tasks : List Task) : (sortByImportance tasks).1.Perm tasks :=
  List.mergeSort_perm tasks _

/-- A class of tasks with one common rank keeps its order through the sort. -/
theorem sortByImportance_filter (tasks : List Task) (P : Task → Bool) (k : Int)
    (hP : ∀ t, P t = true → t.sortKey = k) :
    (sortByImportance tasks).1.filter P = tasks.filter P := by
  have hpw : (tasks.filter P).Pairwise fun a b => (!sortByImportanceComp b a) = true := by
    rw [List.pairwise_iff_forall_sublist]
    intro a b hab
    have ha : a ∈ tasks.filter P := hab.subset (by simp)
    have hb : b ∈ tasks.filter P := hab.subset (by simp)
    rw [sortLe_iff, hP a (List.mem_filter.mp ha).2, hP b (List.mem_filter.mp hb).2]
  have hsub : List.Sublist (tasks.filter P) (sortByImportance tasks).1 :=
    @List.sublist_mergeSort Task (fun a b => !sortByImportanceComp b a) tasks
      sortLe_trans sortLe_total (tasks.filter P) hpw (List.filter_sublist tasks)
  have hsub2 : List.Sublist (tasks.filter P) ((sortByImportance tasks).1.filter P) := by
    have := hsub.filter P
    simpa [List.filter_filter] using this
  have hlen : ((sortByImportance tasks).1.filter P).length = (tasks.filter P).length :=
    ((sortByImportance_perm tasks).filter P).length_eq
  exact (hsub2.eq_of_length hlen.symm).symm

/-- C4: after `sortByImportance` no `NormalTask` stands before an `ImportantTask`
(every Important task precedes every Normal task), and along the Important tasks
the priorities never increase. -/
theorem sortByImportance_sorted (tasks : List Task) :
    (sortByImportance tasks).1.Pairwise fun a b =>
      (b.isImportant = true → a.isImportant = true) ∧
      ∀ pa pb, a.priority? = some pa → b.priority? = some pb → pb.val ≤ pa.val := by
  refine (sortByImportance_pairwise tasks).imp ?_
  intro a b hab
  cases a with
  | NormalTask n d t =>
    cases b with
    | NormalTask n2 d2 t2 => simp [Task.isImportant, Task.priority?]
    | ImportantTask n2 d2 t2 p2 =>
      have := p2.lo
      simp only [Task.sortKey] at hab
      omega
  | ImportantTask n d t p =>
    cases b with
    | NormalTask n2 d2 t2 => simp [Task.isImportant, Task.priority?]
    | ImportantTask n2 d2 t2 p2 =>
      simp only [Task.sortKey] at hab
      simp only [Task.isImportant, Task.priority?, Option.some.injEq, implies_true, true_and]
      intro pa pb ha hb
      rw [← ha, ← hb]
      exact hab

/-- C5: `sortByImportance` is stable: for every priority `p` the Important tasks
of priority `p` appear after the sort as the same sequence as before it, and so do
the Normal tasks. -/
theorem sortByImportance_stable (tasks : List Task) :
    (∀ p : CInt, (sortByImportance tasks).1.filter (fun t => decide (t.priority? = some p))
        = tasks.filter (fun t => decide (t.priority? = some p))) ∧
    (sortByImportance tasks).1.filter (fun t => !t.isImportant)
        = tasks.filter (fun t => !t.isImportant) := by
  constructor
  · intro p
    apply sortByImportance_filter tasks _ p.val
    intro t ht
    cases t with
    | NormalTask n d t => simp [Task.priority?] at ht
    | ImportantTask n d t q =>
      simp only [Task.priority?, Option.some.injEq, decide_eq_true_eq] at ht
      simp [Task.sortKey, ht]
  · apply sortByImportance_filter tasks _ (-2147483649)
    intro t ht
    cases t with
    | NormalTask n d t => rfl
    | ImportantTask n d t q => simp [Task.isImportant] at ht

/-- C6: `sortByImportance` is idempotent: sorting a sorted store changes nothing. -/
theorem sortByImportance_idempotent (tasks : List Task) :
    (sortByImportance (sortByImportance tasks).1).1 = (sortByImportance tasks).1 := by
  have h := @List.sorted_mergeSort Task (fun a b => !sortByImportanceComp b a)
    sortLe_trans sortLe_total tasks
  exact List.mergeSort_of_sorted h

end TaskMananger

/-! ## The calendar behind `mktimeUTC` -/

theorem isLeap_cases (y : Int) :
    (isLeap y = true ∧ y % 4 = 0 ∧ (y % 100 ≠ 0 ∨ y % 400 = 0)) ∨
    (isLeap y = false ∧ (y % 4 ≠ 0 ∨ (y % 100 = 0 ∧ y % 400 ≠ 0))) := by
  cases h : isLeap y with
  | true =>
    left
    simp only [isLeap, Bool.and_eq_true, Bool.or_eq_true, decide_eq_true_eq] at h
    exact ⟨rfl, h.1, h.2⟩
  | false =>
    right
    refine ⟨rfl, ?_⟩
    have h2 : ¬ (y % 4 = 0 ∧ (y % 100 ≠ 0 ∨ y % 400 = 0)) := by
      intro hc
      have : isLeap y = true := by
        simp only [isLeap, Bool.and_eq_true, Bool.or_eq_true, decide_eq_true_eq]
        exact hc
      rw [h] at this
      cases this
    omega

theorem monthLength_bounds (y m : Int) : 28 ≤ monthLength y m ∧ monthLength y m ≤ 31 := by
  unfold monthLength
  split_ifs <;> omega

theorem daysBeforeYear_succ (y : Int) :
    daysBeforeYear (y + 1) = daysBeforeYear y + 365 + (if isLeap y = true then 1 else 0) := by
  unfold daysBeforeYear
  rcases isLeap_cases y with ⟨h, h4, h100⟩ | ⟨h, hn⟩
  · simp only [h, if_true]
    omega
  · simp only [h, Bool.false_eq_true, if_false]
    omega

theorem daysBeforeYear_mono (y1 y2 : Int) (h : y1 ≤ y2) : daysBeforeYear y1 ≤ daysBeforeYear y2 := by
  unfold daysBeforeYear
  omega

theorem dayOfYear_bounds (y m d : Int) (hm0 : 0 ≤ m) (hm1 : m ≤ 11) (hd0 : 1 ≤ d)
    (hd1 : d ≤ monthLength y m) :
    0 ≤ daysBeforeMonth y m + (d - 1) ∧
    daysBeforeMonth y m + (d - 1) < 365 + (if isLeap y = true then 1 else 0) := by
  rcases isLeap_cases y with ⟨h, _⟩ | ⟨h, _⟩ <;>
  · interval_cases m <;> simp [daysBeforeMonth, monthLength, h] at hd1 ⊢ <;> omega

theorem daysBeforeMonth_lt (y m1 m2 d1 d2 : Int) (hm0 : 0 ≤ m1) (hm : m1 < m2) (hm2 : m2 ≤ 11)
    (hd1 : d1 ≤ monthLength y m1) (hd2 : 1 ≤ d2) :
    daysBeforeMonth y m1 + (d1 - 1) < daysBeforeMonth y m2 + (d2 - 1) := by
  have hm1 : m1 ≤ 10 := by omega
  rcases isLeap_cases y with ⟨h, _⟩ | ⟨h, _⟩ <;>
  · interval_cases m1 <;> interval_cases m2 <;>
      simp [daysBeforeMonth, monthLength, h] at hd1 ⊢ <;> omega

theorem dayNumber_lt_of_year (a b : Tm) (ha : a.valid) (hb : b.valid)
    (h : a.tm_year < b.tm_year) : dayNumber a < dayNumber b := by
  obtain ⟨a0, a1, a2, a3⟩ := ha
  obtain ⟨b0, b1, b2, b3⟩ := hb
  have hA := dayOfYear_bounds _ _ _ a0 a1 a2 a3
  have hB := dayOfYear_bounds _ _ _ b0 b1 b2 b3
  have hs := daysBeforeYear_succ (a.tm_year + 1900)
  have hmono := daysBeforeYear_mono (a.tm_year + 1900 + 1) (b.tm_year + 1900) (by omega)
  unfold dayNumber
  omega

theorem dayNumber_lt_of_month (a b : Tm) (ha : a.valid) (hb : b.valid)
    (hy : a.tm_year = b.tm_year) (h : a.tm_mon < b.tm_mon) : dayNumber a < dayNumber b := by
  obtain ⟨a0, a1, a2, a3⟩ := ha
  obtain ⟨b0, b1, b2, b3⟩ := hb
  have := daysBeforeMonth_lt (a.tm_year + 1900) _ _ _ _ a0 h b1 a3 b2
  unfold dayNumber
  rw [← hy]
  omega

/-- On dates of the calendar, the order of the day numbers `mktimeUTC` returns is
the calendar order. -/
theorem dayNumber_le_iff (a b : Tm) (ha : a.valid) (hb : b.valid) :
    dayNumber a ≤ dayNumber b ↔ a.le b = true := by
  simp only [Tm.le, Bool.or_eq_true, Bool.and_eq_true, decide_eq_true_eq]
  constructor
  · intro h
    by_contra hn
    have hlt : dayNumber b < dayNumber a := by
      rcases lt_trichotomy a.tm_year b.tm_year with hy | hy | hy
      · exact absurd (Or.inl hy) hn
      · rcases lt_trichotomy a.tm_mon b.tm_mon with hm | hm | hm
        · exact absurd (Or.inr ⟨hy, Or.inl hm⟩) hn
        · have hd : b.tm_mday < a.tm_mday := by
            by_contra hd
            exact hn (Or.inr ⟨hy, Or.inr ⟨hm, by omega⟩⟩)
          unfold dayNumber
          rw [hy, hm]
          omega
        · exact dayNumber_lt_of_month b a hb ha hy.symm hm
      · exact dayNumber_lt_of_year b a hb ha hy
    omega
  · rintro (hy | ⟨hy, hm | ⟨hm, hd⟩⟩)
    · exact le_of_lt (dayNumber_lt_of_year a b ha hb hy)
    · exact le_of_lt (dayNumber_lt_of_month a b ha hb hy hm)
    · unfold dayNumber
      rw [hy, hm]
      omega

theorem normalizeDay_valid : ∀ (fuel : Nat) (t : Tm), 0 ≤ t.tm_mon → t.tm_mon ≤ 11 →
    (1 ≤ t.tm_mday → t.tm_mday ≤ monthLength (t.tm_year + 1900) t.tm_mon ∨ t.tm_mday ≤ 28 * fuel) →
    (t.tm_mday < 1 → -t.tm_mday < 28 * fuel) → (normalizeDay fuel t).valid := by
  intro fuel
  induction fuel with
  | zero =>
    intro t h0 h1 hpos hneg
    have hd : 1 ≤ t.tm_mday := by
      by_contra hc
      have := hneg (by omega)
      omega
    have := hpos hd
    unfold normalizeDay
    exact ⟨h0, h1, hd, by omega⟩
  | succ f ih =>
    intro t h0 h1 hpos hneg
    unfold normalizeDay
    split_ifs with hlt hz hgt hdec
    · have hb := monthLength_bounds (t.tm_year - 1 + 1900) 11
      have := hneg hlt
      apply ih
      · simp
      · simp
      · intro _; left; simp only; omega
      · intro hq; simp only at hq ⊢; push_cast at this ⊢; omega
    · have hb := monthLength_bounds (t.tm_year + 1900) (t.tm_mon - 1)
      have := hneg hlt
      apply ih
      · simp only; omega
      · simp only; omega
      · intro _; left; simp only; omega
      · intro hq; simp only at hq ⊢; push_cast at this ⊢; omega
    · have hb := monthLength_bounds (t.tm_year + 1900) t.tm_mon
      have := hpos (by omega)
      apply ih
      · simp
      · simp
      · intro _; right; simp only; push_cast at this ⊢; omega
      · intro hq; simp only at hq; omega
    · have hb := monthLength_bounds (t.tm_year + 1900) t.tm_mon
      have := hpos (by omega)
      apply ih
      · simp only; omega
      · simp only; omega
      · intro _; right; simp only; push_cast at this ⊢; omega
      · intro hq; simp only at hq; omega
    · exact ⟨h0, h1, by omega, by omega⟩

/-- The fields `mktimeUTC` writes back always name a day of the calendar. -/
theorem normalize_valid (t : Tm) : t.normalize.valid := by
  have h1 : t.tm_mday ≤ (t.tm_mday.natAbs : Int) := by omega
  have h2 : -t.tm_mday ≤ (t.tm_mday.natAbs : Int) := by omega
  unfold Tm.normalize
  apply normalizeDay_valid
  · dsimp only; omega
  · dsimp only; omega
  · intro _; right; dsimp only; omega
  · intro h; dsimp only at h ⊢; omega

/-- The normal form of a date of the calendar is that date. -/
theorem normalize_of_valid (t : Tm) (h : t.valid) : t.normalize = t := by
  obtain ⟨h0, h1, h2, h3⟩ := h
  have hm : t.tm_mon % 12 = t.tm_mon := by omega
  have hq : t.tm_mon / 12 = 0 := by omega
  unfold Tm.normalize
  rw [hm, hq]
  unfold normalizeDay
  simp only [add_zero]
  rw [if_neg (by omega), if_neg (by omega)]

theorem normalize_idem (t : Tm) : t.normalize.normalize = t.normalize :=
  normalize_of_valid _ (normalize_valid t)

/-- The `mktime` of a process in UTC reads every date of the calendar as its own
day. -/
theorem mktimeUTC_readsDates : Mktime.readsDates mktimeUTC := by
  constructor
  · intro n t ht
    simp only [mktimeUTC, normalize_of_valid t ht.1]
    exact ⟨trivial, by omega⟩
  · intro n m a b ha hb
    simp only [mktimeUTC, normalize_of_valid a ha.1, normalize_of_valid b hb.1]
    rw [← dayNumber_le_iff b a hb.1 ha.1]
    omega

/-! ## Checks of the calendar model -/

theorem getNumber_range (lo hi n : Nat) (rp : Str) (v : Nat) (r : Str)
    (h : getNumber lo hi n rp = some (v, r)) : lo ≤ v ∧ v ≤ hi := by
  unfold getNumber at h
  split at h
  · cases h
  · split_ifs at h with h1 h2
    simp only [Option.some.injEq] at h
    rw [h] at h2
    simp only at h2
    omega

/-- Every date `strptime` delivers is in range. -/
theorem strptime_inRange (s : Str) (t : Tm) (h : strptime s = some t) : t.inRange := by
  unfold strptime at h
  split at h
  · next y rp1 hy =>
    split at h
    · next m rp2 hm =>
      split at h
      · next d rp3 hd =>
        have h1 := getNumber_range _ _ _ _ _ _ hy
        have h2 := getNumber_range _ _ _ _ _ _ hm
        have h3 := getNumber_range _ _ _ _ _ _ hd
        simp only [Option.some.injEq] at h
        rw [← h]
        simp only [Tm.inRange]
        omega
      · cases h
    · cases h
  · cases h

theorem dayNumber_normalizeDay : ∀ (fuel : Nat) (t : Tm), 0 ≤ t.tm_mon → t.tm_mon ≤ 11 →
    dayNumber (normalizeDay fuel t) = dayNumber t := by
  intro fuel
  induction fuel with
  | zero => intro t _ _; rfl
  | succ f ih =>
    intro t h0 h1
    unfold normalizeDay
    split_ifs with hlt hz hgt hdec
    · rw [ih _ (by simp) (by simp)]
      have hs := daysBeforeYear_succ (t.tm_year - 1 + 1900)
      have e : t.tm_year - 1 + 1900 + 1 = t.tm_year + 1900 := by omega
      rw [e] at hs
      rcases isLeap_cases (t.tm_year - 1 + 1900) with ⟨h, _⟩ | ⟨h, _⟩ <;>
        simp [dayNumber, daysBeforeMonth, monthLength, hz, h] at hs ⊢ <;> omega
    · rw [ih _ (by simp only; omega) (by simp only; omega)]
      have hm : 1 ≤ t.tm_mon := by omega
      obtain ⟨d, m, y⟩ := t
      simp only at hm h1 ⊢
      rcases isLeap_cases (y + 1900) with ⟨h, _⟩ | ⟨h, _⟩ <;>
        interval_cases m <;> simp [dayNumber, daysBeforeMonth, monthLength, h] <;> omega
    · rw [ih _ (by simp) (by simp)]
      have hs := daysBeforeYear_succ (t.tm_year + 1900)
      have e : t.tm_year + 1 + 1900 = t.tm_year + 1900 + 1 := by omega
      rcases isLeap_cases (t.tm_year + 1900) with ⟨h, _⟩ | ⟨h, _⟩ <;>
        simp [dayNumber, daysBeforeMonth, monthLength, hdec, h, e] at hs ⊢ <;> omega
    · rw [ih _ (by simp only; omega) (by simp only; omega)]
      have hm : t.tm_mon ≤ 10 := by omega
      obtain ⟨d, m, y⟩ := t
      simp only at hm h0 ⊢
      rcases isLeap_cases (y + 1900) with ⟨h, _⟩ | ⟨h, _⟩ <;>
        interval_cases m <;> simp [dayNumber, daysBeforeMonth, monthLength, h] <;> omega
    · rfl

/-! ## `filterTasksByDeadline` -/

namespace TaskMananger

theorem getDeadline_withDeadline (task : Task) (t : Tm) : (task.withDeadline t).getDeadline = t := by
  cases task <;> rfl

theorem withDeadline_withDeadline (task : Task) (t u : Tm) :
    (task.withDeadline t).withDeadline u = task.withDeadline u := by
  cases task <;> rfl

theorem withDeadline_getDeadline (task : Task) : task.withDeadline task.getDeadline = task := by
  cases task <;> rfl

end TaskMananger

/-! ## The claims on persistence, deletion and loading -/

namespace TaskMananger

/-- C1 (amended): for every store whose names and descriptions hold neither `|`
nor a newline and whose deadlines are dates `strptime` can deliver, loading the
text `saveToFile` wrote into the empty store gives back the same tasks in the same
order, with no error reported. -/
theorem saveToFile_loadFromFile_roundtrip (tasks : List Task)
    (h : ∀ t ∈ tasks, t.persistable) :
    loadFromFile (saveToFile true tasks).file [] = loaded tasks := by
  have hl := loadLoop_saved [] tasks [] [] h
  simp only [List.append_nil, List.nil_append] at hl
  simp only [saveToFile, if_true, loadFromFile, hl]
  rfl

theorem saveToFile_loadFromFile_roundtrip_witness :
    (∀ t ∈ scenarioStore, t.persistable) ∧
    loadFromFile (saveToFile true scenarioStore).file [] = loaded scenarioStore :=
  ⟨by decide, saveToFile_loadFromFile_roundtrip scenarioStore (by decide)⟩

/-- C1 as stated fails: a name holding a newline has no `|` but is split over two
lines of the file, neither of which is a record, so nothing is loaded; and a
deadline in year 10000 is written with five digits, which `strptime` rejects. -/
theorem roundtrip_counterexample :
    ((∀ t ∈ [Task.NormalTask "a\nb".toList "d".toList ⟨10, 0, 125⟩],
        '|' ∉ t.getName ∧ '|' ∉ t.getDescription) ∧
      (loadFromFile (saveToFile true
          [Task.NormalTask "a\nb".toList "d".toList ⟨10, 0, 125⟩]).file []).tasks = []) ∧
    ((∀ t ∈ [Task.NormalTask "a".toList "d".toList ⟨1, 0, 8100⟩],
        '|' ∉ t.getName ∧ '|' ∉ t.getDescription) ∧
      loadFromFile (saveToFile true
          [Task.NormalTask "a".toList "d".toList ⟨1, 0, 8100⟩]).file []
        = { tasks := [], cout := "Successfully loaded from file\n".toList,
            cerr := "Error parsing date: 10000-01-01\n".toList }) := by
  decide

/-- C2 (failing input): a line whose priority is not a number makes `std::stoi`
throw; the exception leaves the reading loop, so the well-formed line after it is
never read and the load ends with an error. -/
theorem loadFromFile_aborts_on_bad_priority :
    loadFromFile (some "Important|a|b|2025-01-01|x\nNormal|c|d|2025-01-02\n".toList) []
      = { tasks := [], cout := [],
          cerr := "Error occurred during file loading: stoi\n".toList } := by
  decide

/-- C3 (failing input): loading a record whose priority field is 99 into the
empty store puts an Important task of priority 99 into the store. -/
theorem loadFromFile_priority_unchecked :
    (loadFromFile (some "Important|a|b|2025-01-01|99\n".toList) []).tasks
        = [Task.ImportantTask "a".toList "b".toList ⟨1, 0, 125⟩ (CInt.ofInt 99)] ∧
    ¬ ((1 : Int) ≤ (CInt.ofInt 99).val ∧ (CInt.ofInt 99).val ≤ 10) := by
  decide

theorem deleteTask_absent_aux (taskName : Str) : ∀ (tasks : List Task),
    (∀ t ∈ tasks, t.getName ≠ taskName) → deleteTask taskName tasks = (false, tasks) := by
  intro tasks
  induction tasks with
  | nil => intro _; rfl
  | cons t ts ih =>
    intro h
    have ht := h t (List.mem_cons_self t ts)
    have hts := ih (fun x hx => h x (List.mem_cons_of_mem t hx))
    simp [deleteTask, ht, hts]

theorem deleteTask_found_aux (taskName : Str) : ∀ (tasks : List Task),
    (∃ t ∈ tasks, t.getName = taskName) →
    ∃ pre t post, tasks = pre ++ t :: post ∧ t.getName = taskName ∧
      (∀ x ∈ pre, x.getName ≠ taskName) ∧ deleteTask taskName tasks = (true, pre ++ post) := by
  intro tasks
  induction tasks with
  | nil => rintro ⟨t, ht, _⟩; cases ht
  | cons a ts ih =>
    rintro ⟨t, ht, hname⟩
    by_cases ha : a.getName = taskName
    · exact ⟨[], a, ts, rfl, ha, by simp, by simp [deleteTask, ha]⟩
    · have hmem : t ∈ ts := by
        rcases List.mem_cons.mp ht with e | e
        · rw [e] at hname; exact absurd hname ha
        · exact e
      obtain ⟨pre, u, post, hsplit, hu, hpre, hdel⟩ := ih ⟨t, hmem, hname⟩
      refine ⟨a :: pre, u, post, by rw [hsplit]; rfl, hu, ?_, ?_⟩
      · intro x hx
        rcases List.mem_cons.mp hx with e | e
        · rw [e]; exact ha
        · exact hpre x e
      · simp [deleteTask, ha, hdel]

/-- C8: `deleteTask` returns `true` exactly when a task of the store has the name;
then the store splits around the first such task, that task alone is removed, the
tasks before and after it stay in place and in order, and the length drops by
one. -/
theorem deleteTask_spec (taskName : Str) (tasks : List Task) :
    ((deleteTask taskName tasks).1 = true ↔ ∃ t ∈ tasks, t.getName = taskName) ∧
    ((deleteTask taskName tasks).1 = true →
      ∃ pre t post, tasks = pre ++ t :: post ∧ t.getName = taskName ∧
        (∀ x ∈ pre, x.getName ≠ taskName) ∧
        (deleteTask taskName tasks).2 = pre ++ post ∧
        (deleteTask taskName tasks).2.length + 1 = tasks.length) := by
  have hiff : (deleteTask taskName tasks).1 = true ↔ ∃ t ∈ tasks, t.getName = taskName := by
    constructor
    · intro h
      by_contra hn
      have hall : ∀ t ∈ tasks, t.getName ≠ taskName := fun t ht e => hn ⟨t, ht, e⟩
      rw [deleteTask_absent_aux taskName tasks hall] at h
      cases h
    · intro h
      obtain ⟨pre, t, post, _, _, _, hdel⟩ := deleteTask_found_aux taskName tasks h
      rw [hdel]
  refine ⟨hiff, ?_⟩
  intro h
  obtain ⟨pre, t, post, hsplit, ht, hpre, hdel⟩ := deleteTask_found_aux taskName tasks (hiff.mp h)
  refine ⟨pre, t, post, hsplit, ht, hpre, by rw [hdel], ?_⟩
  rw [hdel, hsplit]
  simp
  omega

theorem deleteTask_spec_witness :
    (deleteTask "x".toList
        [Task.NormalTask "x".toList "first".toList ⟨10, 0, 125⟩,
         Task.NormalTask "y".toList "other".toList ⟨11, 0, 125⟩,
         Task.NormalTask "x".toList "second".toList ⟨12, 0, 125⟩]).1 = true ∧
    ∃ pre t post,
      [Task.NormalTask "x".toList "first".toList ⟨10, 0, 125⟩,
       Task.NormalTask "y".toList "other".toList ⟨11, 0, 125⟩,
       Task.NormalTask "x".toList "second".toList ⟨12, 0, 125⟩] = pre ++ t :: post ∧
      t.getName = "x".toList ∧ (∀ x ∈ pre, x.getName ≠ "x".toList) ∧
      (deleteTask "x".toList
        [Task.NormalTask "x".toList "first".toList ⟨10, 0, 125⟩,
         Task.NormalTask "y".toList "other".toList ⟨11, 0, 125⟩,
         Task.NormalTask "x".toList "second".toList ⟨12, 0, 125⟩]).2 = pre ++ post ∧
      (deleteTask "x".toList
        [Task.NormalTask "x".toList "first".toList ⟨10, 0, 125⟩,
         Task.NormalTask "y".toList "other".toList ⟨11, 0, 125⟩,
         Task.NormalTask "x".toList "second".toList ⟨12, 0, 125⟩]).2.length + 1 = 3 :=
  ⟨by decide, (deleteTask_spec _ _).2 (by decide)⟩

/-- C9: when no task of the store has the name, `deleteTask` returns `false` and
the store is the same sequence as before. -/
theorem deleteTask_absent (taskName : Str) (tasks : List Task)
    (h : ∀ t ∈ tasks, t.getName ≠ taskName) :
    deleteTask taskName tasks = (false, tasks) :=
  deleteTask_absent_aux taskName tasks h

theorem deleteTask_absent_witness :
    (∀ t ∈ scenarioStore, t.getName ≠ "Budget".toList) ∧
    deleteTask "Budget".toList scenarioStore = (false, scenarioStore) :=
  ⟨by decide, deleteTask_absent _ _ (by decide)⟩

theorem recordWithoutPriority_no_newline (n d : Str) (t : Tm) (hn : isField n) (hd : isField d)
    (ht : t.inRange) : '\n' ∉ recordWithoutPriority n d t := by
  have hnl := strftime_not_mem t ht '\n' (by decide) (by decide)
  unfold recordWithoutPriority
  simp only [List.mem_append, List.mem_cons, not_or]
  exact ⟨⟨⟨by decide, hn.2⟩, by decide, hd.2⟩, by decide, hnl⟩

theorem loadLine_recordWithoutPriority (n d : Str) (t : Tm) (hn : isField n) (hd : isField d)
    (ht : t.inRange) : loadLine (recordWithoutPriority n d t) = .ok (none, []) := by
  have hform : recordWithoutPriority n d t
      = "Important".toList ++ '|' :: (n ++ '|' :: (d ++ '|' :: strftime t)) := by
    simp [recordWithoutPriority]
  rw [hform, loadLine_four _ n d _ (by decide) hn.1 hd.1
    (strftime_not_mem t ht '|' (by decide) (by decide)) (strftime_ne_nil t),
    strptime_strftime t ht]
  rfl

end TaskMananger

/-! ## Lines of a file and their fields -/

namespace TaskMananger

theorem getlines_cons (d : Char) (s f : Str) (rest : List Str) (h : getlines d s = f :: rest) :
    ∃ r, getline d s = some (f, r) ∧ getlines d r = rest := by
  rw [getlines_eq_getline] at h
  cases hg : getline d s with
  | none => rw [hg] at h; cases h
  | some p =>
    obtain ⟨l, r⟩ := p
    rw [hg] at h
    simp only [List.cons.injEq] at h
    exact ⟨r, by rw [h.1], h.2⟩

theorem getlines_nil (d : Char) (s : Str) (h : getlines d s = []) : getline d s = none := by
  rw [getlines_eq_getline] at h
  cases hg : getline d s with
  | none => rfl
  | some p => rw [hg] at h; cases h

/-- What the body of the reading loop does with a line, in terms of the fields
`|` splits the line into. -/
theorem loadLine_eq_fields (line : Str) :
    loadLine line = match getlines '|' line with
      | k :: n :: d :: ds :: more =>
        (match strptime ds with
          | some t =>
            if k = "Important".toList then
              (match more with
                | ps :: _ =>
                  (match stoi ps with
                    | .ok p => .ok (some (Task.ImportantTask n d t p), [])
                    | .error e => .error e)
                | [] => .ok (none, []))
            else .ok (some (Task.NormalTask n d t), [])
          | none => .ok (none, "Error parsing date: ".toList ++ ds ++ ['\n']))
      | _ => .ok (none, []) := by
  unfold loadLine
  cases h1 : getlines '|' line with
  | nil => simp only [getlines_nil _ _ h1]
  | cons k l1 =>
    obtain ⟨r1, g1, e1⟩ := getlines_cons _ _ _ _ h1
    simp only [g1]
    cases l1 with
    | nil => simp only [getlines_nil _ _ e1]
    | cons n l2 =>
      obtain ⟨r2, g2, e2⟩ := getlines_cons _ _ _ _ e1
      simp only [g2]
      cases l2 with
      | nil => simp only [getlines_nil _ _ e2]
      | cons d l3 =>
        obtain ⟨r3, g3, e3⟩ := getlines_cons _ _ _ _ e2
        simp only [g3]
        cases l3 with
        | nil => simp only [getlines_nil _ _ e3]
        | cons ds more =>
          obtain ⟨r4, g4, e4⟩ := getlines_cons _ _ _ _ e3
          simp only [g4]
          cases more with
          | nil => simp only [getlines_nil _ _ e4]
          | cons ps rest =>
            obtain ⟨r5, g5, _⟩ := getlines_cons _ _ _ _ e4
            simp only [g5]

theorem loadLine_short (line : Str) (h : (getlines '|' line).length < 4) :
    loadLine line = .ok (none, []) := by
  rw [loadLine_eq_fields]
  split
  · next k n d ds more heq => rw [heq] at h; simp only [List.length_cons] at h; omega
  · rfl

theorem loadLine_bad_date (line k n d ds : Str) (more : List Str)
    (hf : getlines '|' line = k :: n :: d :: ds :: more) (hd : strptime ds = none) :
    loadLine line = .ok (none, "Error parsing date: ".toList ++ ds ++ ['\n']) := by
  rw [loadLine_eq_fields, hf]
  simp only [hd]

/-! ## The reading loop of `loadFromFile` -/

theorem loadLoop_tasks : ∀ (lines : List Str) (tasks : List Task) (cerr : Str),
    (loadLoop lines tasks cerr).tasks = tasks ++ parsedTasks lines := by
  intro lines
  induction lines with
  | nil => intro tasks cerr; simp [loadLoop, parsedTasks]
  | cons line rest ih =>
    intro tasks cerr
    unfold loadLoop parsedTasks
    split
    · next task err h => simp [h, ih, addTask]
    · next err h => simp [h, ih]
    · next e h => simp [h]

theorem loadLoop_append : ∀ (l1 l2 : List Str) (tasks t1 : List Task) (cerr e1 : Str),
    loadLoop l1 tasks cerr = ⟨t1, "Successfully loaded from file\n".toList, e1⟩ →
    loadLoop (l1 ++ l2) tasks cerr = loadLoop l2 t1 e1 := by
  intro l1
  induction l1 with
  | nil =>
    intro l2 tasks t1 cerr e1 h
    simp only [loadLoop, LoadResult.mk.injEq, true_and] at h
    rw [List.nil_append, h.1, h.2]
  | cons line rest ih =>
    intro l2 tasks t1 cerr e1 h
    rw [List.cons_append]
    cases hl : loadLine line with
    | error e =>
      simp only [loadLoop, hl, LoadResult.mk.injEq] at h
      exact absurd h.2.1 (by decide)
    | ok p =>
      obtain ⟨o, err⟩ := p
      cases o with
      | none =>
        simp only [loadLoop, hl] at h ⊢
        exact ih l2 _ t1 _ e1 h
      | some task =>
        simp only [loadLoop, hl] at h ⊢
        exact ih l2 _ t1 _ e1 h

theorem loadLoop_skip (line : Str) (hl : loadLine line = .ok (none, [])) :
    ∀ (l1 l2 : List Str) (tasks : List Task) (cerr : Str),
    loadLoop (l1 ++ line :: l2) tasks cerr = loadLoop (l1 ++ l2) tasks cerr := by
  intro l1
  induction l1 with
  | nil =>
    intro l2 tasks cerr
    rw [List.nil_append, List.nil_append]
    conv_lhs => unfold loadLoop
    simp only [hl, List.append_nil]
  | cons a rest ih =>
    intro l2 tasks cerr
    rw [List.cons_append, List.cons_append]
    unfold loadLoop
    split
    · exact ih l2 _ _
    · exact ih l2 _ _
    · rfl

theorem parsedTasks_skip (line : Str) (err : Str) (hl : loadLine line = .ok (none, err)) :
    ∀ (l1 l2 : List Str), parsedTasks (l1 ++ line :: l2) = parsedTasks (l1 ++ l2) := by
  intro l1
  induction l1 with
  | nil =>
    intro l2
    rw [List.nil_append, List.nil_append]
    conv_lhs => unfold parsedTasks
    simp only [hl]
  | cons a rest ih =>
    intro l2
    rw [List.cons_append, List.cons_append]
    unfold parsedTasks
    split
    · rw [ih l2]
    · exact ih l2
    · rfl

/-- C11: a line of the file whose fourth field is not a date adds no task and
yields one error report, for that line; the load goes on: the store ends as if
the line were absent, and when the loop reaches the line (the lines before it
were read to the end) the result is the one of reading the lines after it from
the state reached, with that one report added. -/
theorem loadFromFile_bad_date_line (content : Str) (before after : List Str)
    (line k n d ds : Str) (more : List Str) (tasks : List Task)
    (hfile : getlines '\n' content = before ++ line :: after)
    (hfields : getlines '|' line = k :: n :: d :: ds :: more)
    (hdate : strptime ds = none) :
    loadLine line = .ok (none, "Error parsing date: ".toList ++ ds ++ ['\n']) ∧
    (loadFromFile (some content) tasks).tasks = (loadLoop (before ++ after) tasks []).tasks ∧
    ∀ t1 e1, loadLoop before tasks [] = ⟨t1, "Successfully loaded from file\n".toList, e1⟩ →
      loadFromFile (some content) tasks
        = loadLoop after t1 (e1 ++ ("Error parsing date: ".toList ++ ds ++ ['\n'])) := by
  have hl := loadLine_bad_date line k n d ds more hfields hdate
  refine ⟨hl, ?_, ?_⟩
  · simp only [loadFromFile, hfile, loadLoop_tasks, parsedTasks_skip line _ hl]
  · intro t1 e1 hb
    simp only [loadFromFile, hfile]
    rw [loadLoop_append before (line :: after) tasks t1 [] e1 hb]
    conv_lhs => unfold loadLoop
    simp only [hl]

theorem loadFromFile_bad_date_line_witness :
    loadLine "Normal|c|d|20250102".toList
        = .ok (none, "Error parsing date: ".toList ++ "20250102".toList ++ ['\n']) ∧
    (loadFromFile (some "Normal|a|b|2025-01-01\nNormal|c|d|20250102\nNormal|e|f|2025-01-03\n".toList)
        scenarioStore).tasks
      = (loadLoop (["Normal|a|b|2025-01-01".toList] ++ ["Normal|e|f|2025-01-03".toList])
          scenarioStore []).tasks ∧
    loadFromFile (some "Normal|a|b|2025-01-01\nNormal|c|d|20250102\nNormal|e|f|2025-01-03\n".toList)
        scenarioStore
      = loadLoop ["Normal|e|f|2025-01-03".toList]
          (scenarioStore ++ [Task.NormalTask "a".toList "b".toList ⟨1, 0, 125⟩])
          ([] ++ ("Error parsing date: ".toList ++ "20250102".toList ++ ['\n'])) :=
  ⟨(loadFromFile_bad_date_line
      "Normal|a|b|2025-01-01\nNormal|c|d|20250102\nNormal|e|f|2025-01-03\n".toList
      ["Normal|a|b|2025-01-01".toList] ["Normal|e|f|2025-01-03".toList]
      "Normal|c|d|20250102".toList "Normal".toList "c".toList "d".toList "20250102".toList []
      scenarioStore (by decide) (by decide) (by decide)).1,
   (loadFromFile_bad_date_line
      "Normal|a|b|2025-01-01\nNormal|c|d|20250102\nNormal|e|f|2025-01-03\n".toList
      ["Normal|a|b|2025-01-01".toList] ["Normal|e|f|2025-01-03".toList]
      "Normal|c|d|20250102".toList "Normal".toList "c".toList "d".toList "20250102".toList []
      scenarioStore (by decide) (by decide) (by decide)).2.1,
   (loadFromFile_bad_date_line
      "Normal|a|b|2025-01-01\nNormal|c|d|20250102\nNormal|e|f|2025-01-03\n".toList
      ["Normal|a|b|2025-01-01".toList] ["Normal|e|f|2025-01-03".toList]
      "Normal|c|d|20250102".toList "Normal".toList "c".toList "d".toList "20250102".toList []
      scenarioStore (by decide) (by decide) (by decide)).2.2 _ _ (by decide)⟩

/-- C12: a line of the file with fewer than four `|`-separated fields adds no
task and yields no report, and the load goes on: its result is the one of reading
the other lines of the file. -/
theorem loadFromFile_short_line (content : Str) (before after : List Str) (line : Str)
    (tasks : List Task)
    (hfile : getlines '\n' content = before ++ line :: after)
    (hshort : (getlines '|' line).length < 4) :
    loadLine line = .ok (none, []) ∧
    loadFromFile (some content) tasks = loadLoop (before ++ after) tasks [] := by
  have hl := loadLine_short line hshort
  refine ⟨hl, ?_⟩
  simp only [loadFromFile, hfile]
  exact loadLoop_skip line hl before after tasks []

theorem loadFromFile_short_line_witness :
    loadLine "Normal|c|d".toList = .ok (none, []) ∧
    loadFromFile (some "Normal|a|b|2025-01-01\nNormal|c|d\nNormal|e|f|2025-01-03\n".toList)
        scenarioStore
      = loadLoop (["Normal|a|b|2025-01-01".toList] ++ ["Normal|e|f|2025-01-03".toList])
          scenarioStore [] :=
  loadFromFile_short_line _ ["Normal|a|b|2025-01-01".toList] ["Normal|e|f|2025-01-03".toList]
    "Normal|c|d".toList scenarioStore (by decide) (by decide)

/-- C13: when the file cannot be opened, `saveToFile` and `loadFromFile` write
their error message to `std::cerr`, do nothing else (no file content, no success
message) and leave the store as it was. -/
theorem open_failure_keeps_store (tasks : List Task) :
    saveToFile false tasks
      = { file := none, cout := []
          cerr := "Error occurred during file saving: Error: can't open file for writing\n".toList
          tasks := tasks } ∧
    loadFromFile none tasks
      = { tasks := tasks, cout := []
          cerr := "Error occurred during file loading: Error: can't open file for reading\n".toList } :=
  ⟨rfl, rfl⟩

/-- C20: `loadFromFile` appends and never clears: the store after the load is the
store before it followed by the tasks parsed from the lines of the file, in line
order, which are the tasks a load into the empty store gives; so a second load of
the same file adds them once more. -/
theorem loadFromFile_appends (file : Option Str) (tasks : List Task) :
    (loadFromFile file tasks).tasks
      = tasks ++ (match file with
          | none => []
          | some content => parsedTasks (getlines '\n' content)) ∧
    (loadFromFile file tasks).tasks = tasks ++ (loadFromFile file []).tasks ∧
    (loadFromFile file (loadFromFile file tasks).tasks).tasks
      = tasks ++ (loadFromFile file []).tasks ++ (loadFromFile file []).tasks := by
  cases file with
  | none => simp [loadFromFile]
  | some content => simp [loadFromFile, loadLoop_tasks]

end TaskMananger

/-! ## Decimal text against the library's own -/

theorem digitChar_eq (d : Nat) (h : d < 10) : digitChar d = Nat.digitChar d := by
  interval_cases d <;> rfl

theorem natDigitsAux_eq_toDigitsCore (fuel : Nat) : ∀ (n : Nat) (acc : Str),
    natDigitsAux fuel n acc = Nat.toDigitsCore 10 fuel n acc := by
  induction fuel with
  | zero => intro n acc; rfl
  | succ f ih =>
    intro n acc
    simp only [natDigitsAux, Nat.toDigitsCore, digitChar_eq _ (Nat.mod_lt n (by decide)), ih]

theorem natDigits_eq_repr (n : Nat) : natDigits n = (toString n).toList := by
  show natDigits n = (Nat.toDigits 10 n).asString.toList
  simp [natDigits, Nat.toDigits, natDigitsAux_eq_toDigitsCore, List.asString]

/-- The text `std::to_string` gives is the decimal text of the integer. -/
theorem to_string_eq_toString (v : Int) : to_string v = (toString v).toList := by
  cases v with
  | ofNat m =>
    have h : ¬ (Int.ofNat m < 0) := by simp
    simp only [to_string, h, if_false]
    exact natDigits_eq_repr m
  | negSucc m =>
    have h : Int.negSucc m < 0 := Int.negSucc_lt_zero m
    simp only [to_string, h, if_true]
    show '-' :: natDigits (m + 1) = ("-" ++ toString (m + 1)).toList
    rw [natDigits_eq_repr]
    simp [String.toList, String.data_append]

/-! ## File format, listing and the order of the sort -/

namespace TaskMananger

theorem fmtNumber_chars (w : Nat) (v : Int) : ∀ c ∈ fmtNumber w v, isdigit c = true ∨ c = '-' := by
  intro c hc
  simp only [fmtNumber, List.mem_append, List.mem_replicate] at hc
  rcases hc with (hc | hc) | hc
  · split at hc
    · simp only [List.mem_singleton] at hc; exact Or.inr hc
    · cases hc
  · rw [hc.2]; exact Or.inl (by decide)
  · exact Or.inl (natDigits_isdigit _ c hc)

theorem strftime_newline (t : Tm) : '\n' ∉ strftime t := by
  intro h
  simp only [strftime, List.mem_append, List.mem_cons] at h
  have hno : ∀ w v, '\n' ∉ fmtNumber w v := by
    intro w v hm
    rcases fmtNumber_chars w v _ hm with hc | hc
    · exact absurd hc (by decide)
    · exact absurd hc (by decide)
  rcases h with (h | h | h) | h | h
  · exact hno _ _ h
  · exact absurd h (by decide)
  · exact hno _ _ h
  · exact absurd h (by decide)
  · exact hno _ _ h

theorem saveLine_eq_recordText (task : Task) : saveLine task = recordText task ++ ['\n'] := by
  cases task with
  | NormalTask n d t =>
    rw [saveLine_normal]
    simp [recordText]
  | ImportantTask n d t p =>
    rw [saveLine_important, to_string_eq_toString]
    simp [recordText]

theorem recordText_newline (task : Task) (hn : '\n' ∉ task.getName)
    (hd : '\n' ∉ task.getDescription) : '\n' ∉ recordText task := by
  have hs := strftime_newline task.getDeadline
  cases task with
  | NormalTask n d t =>
    simp only [Task.getName, Task.getDescription, Task.getDeadline] at hn hd hs
    simp only [recordText, List.mem_append, List.mem_singleton, not_or]
    exact ⟨⟨⟨⟨⟨⟨by decide, by decide⟩, hn⟩, by decide⟩, hd⟩, by decide⟩, hs⟩
  | ImportantTask n d t p =>
    simp only [Task.getName, Task.getDescription, Task.getDeadline] at hn hd hs
    have hp : '\n' ∉ (toString p.val).toList := by
      rw [← to_string_eq_toString]
      exact to_string_not_mem _ '\n' (by decide) (by decide)
    simp only [recordText, List.mem_append, List.mem_singleton, not_or]
    exact ⟨⟨⟨⟨⟨⟨⟨⟨by decide, by decide⟩, hn⟩, by decide⟩, hd⟩, by decide⟩, hs⟩, by decide⟩, hp⟩

theorem getlines_records : ∀ (tasks : List Task),
    (∀ t ∈ tasks, '\n' ∉ t.getName ∧ '\n' ∉ t.getDescription) →
    getlines '\n' ((tasks.map fun t => recordText t ++ ['\n']).flatten) = tasks.map recordText := by
  intro tasks
  induction tasks with
  | nil => intro _; rfl
  | cons t ts ih =>
    intro h
    have ht := h t (List.mem_cons_self t ts)
    rw [List.map_cons, List.flatten_cons, List.append_assoc, List.singleton_append,
      getlines_line '\n' _ _ (recordText_newline t ht.1 ht.2),
      ih (fun x hx => h x (List.mem_cons_of_mem t hx))]
    rfl

theorem fmtNumber_two (k : Nat) (h : k ≤ 99) :
    fmtNumber 2 (k : Int) = [digitChar (k / 10 % 10), digitChar (k % 10)] := by
  have hs : ¬ ((k : Int) < 0) := by omega
  by_cases h1 : k < 10
  · have e1 : k / 10 % 10 = 0 := by omega
    have e2 : k % 10 = k := by omega
    simp [fmtNumber, hs, natDigits_lt k h1, e1, e2, digitChar]
  · have e1 : k / 10 % 10 = k / 10 := by omega
    simp [fmtNumber, hs, natDigits_ge k (by omega), natDigits_lt (k / 10) (by omega), e1]

theorem natDigits_four (y : Nat) (h1 : 1000 ≤ y) (h2 : y ≤ 9999) :
    natDigits y = [digitChar (y / 1000 % 10), digitChar (y / 100 % 10), digitChar (y / 10 % 10),
      digitChar (y % 10)] := by
  have e1 : y / 10 / 10 / 10 = y / 1000 % 10 := by omega
  have e2 : y / 10 / 10 % 10 = y / 100 % 10 := by omega
  rw [natDigits_ge y (by omega), natDigits_ge (y / 10) (by omega),
    natDigits_ge (y / 10 / 10) (by omega), natDigits_lt (y / 10 / 10 / 10) (by omega), e1, e2]
  rfl

/-- For a year of four digits the text `strftime` gives has the form
`YYYY-MM-DD`. -/
theorem strftime_isoDate (t : Tm) (h : t.inRange) (hy : 1000 ≤ t.tm_year + 1900) :
    strftime t = isoDate t := by
  obtain ⟨h0, h1, h2, h3, h4, h5⟩ := h
  have ey : (t.tm_year + 1900).natAbs = (t.tm_year + 1900).toNat := by omega
  have em : t.tm_mon + 1 = (((t.tm_mon + 1).toNat : Nat) : Int) := by omega
  have ed : t.tm_mday = ((t.tm_mday.toNat : Nat) : Int) := by omega
  unfold strftime isoDate
  rw [fmtNumber_one _ h0, ey, natDigits_four _ (by omega) (by omega)]
  conv_lhs => rw [em, ed, fmtNumber_two _ (by omega), fmtNumber_two _ (by omega)]
  simp

theorem getlines_not_mem (d : Char) : ∀ (s : Str), ∀ f ∈ getlines d s, d ∉ f := by
  intro s
  induction s with
  | nil => intro f hf; cases hf
  | cons c cs ih =>
    intro f hf
    by_cases hc : c = d
    · simp only [getlines, hc, if_true, List.mem_cons] at hf
      rcases hf with hf | hf
      · rw [hf]; simp
      · exact ih f hf
    · simp only [getlines, hc, if_false] at hf
      cases hg : getlines d cs with
      | nil =>
        rw [hg] at hf
        simp only [List.mem_singleton] at hf
        rw [hf]
        simpa using fun e => hc e.symm
      | cons l ls =>
        rw [hg] at hf
        simp only [List.mem_cons] at hf
        rcases hf with hf | hf
        · rw [hf]
          have hl := ih l (by rw [hg]; exact List.mem_cons_self l ls)
          simp only [List.mem_cons, not_or]
          exact ⟨fun e => hc e.symm, hl⟩
        · exact ih f (by rw [hg]; exact List.mem_cons_of_mem l hf)

/-- A task the reading loop builds from a line has no `|` in its name or its
description. -/
theorem loadLine_fields_clean (line : Str) (task : Task) (err : Str)
    (h : loadLine line = .ok (some task, err)) :
    '|' ∉ task.getName ∧ '|' ∉ task.getDescription := by
  rw [loadLine_eq_fields] at h
  split at h
  · next k n d ds more heq =>
    have hn : '|' ∉ n := getlines_not_mem '|' line n (by rw [heq]; simp)
    have hd : '|' ∉ d := getlines_not_mem '|' line d (by rw [heq]; simp)
    split at h
    · split at h
      · split at h
        · split at h
          · simp only [Except.ok.injEq, Prod.mk.injEq, Option.some.injEq] at h
            rw [← h.1]
            exact ⟨hn, hd⟩
          · cases h
        · simp at h
      · simp only [Except.ok.injEq, Prod.mk.injEq, Option.some.injEq] at h
        rw [← h.1]
        exact ⟨hn, hd⟩
    · simp at h
  · simp at h

theorem parsedTasks_clean : ∀ (lines : List Str), ∀ t ∈ parsedTasks lines,
    '|' ∉ t.getName ∧ '|' ∉ t.getDescription := by
  intro lines
  induction lines with
  | nil => intro t ht; cases ht
  | cons line rest ih =>
    intro t ht
    unfold parsedTasks at ht
    split at ht
    · next task err hl =>
      rcases List.mem_cons.mp ht with e | e
      · rw [e]; exact loadLine_fields_clean line task err hl
      · exact ih t e
    · exact ih t ht
    · cases ht

/-- C15: there is no escaping of the delimiter: a task whose name or description
holds a `|` is never among the tasks loaded back from the file `saveToFile` wrote
for a store holding it, so the loaded store differs from the saved one. -/
theorem saved_task_with_delimiter_not_reloaded (tasks : List Task) (task : Task)
    (hmem : task ∈ tasks) (hbar : '|' ∈ task.getName ∨ '|' ∈ task.getDescription) :
    task ∉ (loadFromFile (saveToFile true tasks).file []).tasks ∧
    (loadFromFile (saveToFile true tasks).file []).tasks ≠ tasks := by
  have hnot : task ∉ (loadFromFile (saveToFile true tasks).file []).tasks := by
    intro hin
    simp only [saveToFile, if_true, loadFromFile, loadLoop_tasks, List.nil_append] at hin
    have hc := parsedTasks_clean _ task hin
    rcases hbar with hb | hb
    · exact hc.1 hb
    · exact hc.2 hb
  refine ⟨hnot, ?_⟩
  intro he
  rw [he] at hnot
  exact hnot hmem

theorem saved_task_with_delimiter_not_reloaded_witness :
    Task.NormalTask "a|b".toList "d".toList ⟨10, 0, 125⟩
        ∉ (loadFromFile (saveToFile true
            (scenarioStore ++ [Task.NormalTask "a|b".toList "d".toList ⟨10, 0, 125⟩])).file []).tasks ∧
    (loadFromFile (saveToFile true
        (scenarioStore ++ [Task.NormalTask "a|b".toList "d".toList ⟨10, 0, 125⟩])).file []).tasks
      ≠ scenarioStore ++ [Task.NormalTask "a|b".toList "d".toList ⟨10, 0, 125⟩] :=
  saved_task_with_delimiter_not_reloaded _ _ (by decide) (by decide)

/-- C16: for every Important task, in particular one with a priority from 1 to
10, `getImportance` is exactly the decimal text of the priority. -/
theorem getImportance_important (name description : Str) (deadline : Tm) (priority : CInt) :
    (Task.ImportantTask name description deadline priority).getImportance
      = (toString priority.val).toList :=
  to_string_eq_toString priority.val

end TaskMananger

namespace TaskMananger

/-- C18: the comparator of `sortByImportance` is a strict weak ordering on all
tasks: no task comes before itself, coming before is transitive, and so is being
incomparable (neither before the other). -/
theorem sortByImportanceComp_strict_weak (a b c : Task) :
    sortByImportanceComp a a = false ∧
    (sortByImportanceComp a b = true → sortByImportanceComp b c = true →
      sortByImportanceComp a c = true) ∧
    (sortByImportanceComp a b = false → sortByImportanceComp b a = false →
      sortByImportanceComp b c = false → sortByImportanceComp c b = false →
      sortByImportanceComp a c = false ∧ sortByImportanceComp c a = false) := by
  simp only [sortByImportanceComp_eq, decide_eq_true_eq, decide_eq_false_iff_not]
  refine ⟨by omega, by omega, ?_⟩
  intro h1 h2 h3 h4
  constructor <;> omega

theorem sortByImportanceComp_strict_weak_witness :
    sortByImportanceComp
        (Task.ImportantTask "Launch".toList "Ship v1".toList ⟨1, 1, 125⟩ (CInt.ofInt 9))
        (Task.NormalTask "Report".toList "Write report".toList ⟨10, 0, 125⟩) = true ∧
    sortByImportanceComp
        (Task.ImportantTask "Fix".toList "Patch".toList ⟨2, 1, 125⟩ (CInt.ofInt 10))
        (Task.ImportantTask "Launch".toList "Ship v1".toList ⟨1, 1, 125⟩ (CInt.ofInt 9)) = true ∧
    sortByImportanceComp
        (Task.ImportantTask "Fix".toList "Patch".toList ⟨2, 1, 125⟩ (CInt.ofInt 10))
        (Task.NormalTask "Report".toList "Write report".toList ⟨10, 0, 125⟩) = true :=
  ⟨by decide, by decide,
   (sortByImportanceComp_strict_weak
      (Task.ImportantTask "Fix".toList "Patch".toList ⟨2, 1, 125⟩ (CInt.ofInt 10))
      (Task.ImportantTask "Launch".toList "Ship v1".toList ⟨1, 1, 125⟩ (CInt.ofInt 9))
      (Task.NormalTask "Report".toList "Write report".toList ⟨10, 0, 125⟩)).2.1
    (by decide) (by decide)⟩

/-- C19: `sortByImportance` only reorders: the store after the sort is a
permutation of the store before it, so every task occurs as often as before and
the length is the same. -/
theorem sortByImportance_reorders (tasks : List Task) :
    (sortByImportance tasks).1.Perm tasks ∧
    (sortByImportance tasks).1.length = tasks.length ∧
    ∀ t, (sortByImportance tasks).1.count t = tasks.count t := by
  have h : (sortByImportance tasks).1.Perm tasks := List.mergeSort_perm tasks _
  exact ⟨h, h.length_eq, fun t => h.count_eq t⟩

end TaskMananger

/-! ## `filterTasksByDeadline` and `printTasks` over the library's `mktime` -/

namespace TaskMananger

theorem getDeadlineString_of_kept (call : MktimeCall) (task : Task)
    (h2 : (call task.getDeadline).2 = task.getDeadline) (h1 : (call task.getDeadline).1 ≠ -1) :
    Task.getDeadlineString call task = (strftime task.getDeadline, task) := by
  simp only [Task.getDeadlineString, h1, ne_eq, not_false_eq_true, if_true, h2,
    withDeadline_getDeadline]

theorem printTask_of_kept (call : MktimeCall) (task : Task)
    (h2 : (call task.getDeadline).2 = task.getDeadline) (h1 : (call task.getDeadline).1 ≠ -1) :
    Task.printTask call task = (taskText task, task) := by
  have hg := getDeadlineString_of_kept call task h2 h1
  cases task with
  | NormalTask n d t =>
    simp only [Task.printTask, Task.insertion, hg, taskText, Task.getName, Task.getDescription,
      Task.getDeadline]
  | ImportantTask n d t p =>
    simp only [Task.printTask, Task.insertion, hg, taskText, Task.getName, Task.getDescription,
      Task.getDeadline, to_string_eq_toString]

/-- With a `mktime` that reads dates as their own day, the loop over a store of
dates prints the tasks on or after the cutoff and leaves the store as it is. -/
theorem filterLoop_of_readsDates (mk : Mktime) (hmk : mk.readsDates) :
    ∀ (tasks : List Task) (n : Nat) (deadline : Tm), deadline.isDate →
    (∀ t ∈ tasks, t.getDeadline.isDate) →
    filterLoop mk n deadline tasks
      = (((tasks.filter fun t => deadline.le t.getDeadline).map taskText).flatten,
         decide (tasks.filter (fun t => deadline.le t.getDeadline) ≠ []), tasks) := by
  intro tasks
  induction tasks with
  | nil => intro n deadline _ _; simp [filterLoop]
  | cons task rest ih =>
    intro n deadline hd ht
    have htask := ht task (List.mem_cons_self task rest)
    have hrest : ∀ t ∈ rest, t.getDeadline.isDate := fun t h => ht t (List.mem_cons_of_mem task h)
    have hA := hmk.1 (3 * n) task.getDeadline htask
    have hB := hmk.1 (3 * n + 1) deadline hd
    have hC := hmk.1 (3 * n + 2) task.getDeadline htask
    have hcmp := hmk.2 (3 * n) (3 * n + 1) task.getDeadline deadline htask hd
    have hp := printTask_of_kept (mk (3 * n + 2)) task hC.1 hC.2
    unfold filterLoop
    rw [hA.1, hB.1, withDeadline_getDeadline, hp, ih (n + 1) deadline hd hrest]
    by_cases hc : deadline.le task.getDeadline = true
    · have hge : (mk (3 * n) task.getDeadline).1 ≥ (mk (3 * n + 1) deadline).1 := hcmp.mpr hc
      simp [hge, List.filter_cons, hc]
    · have hge : ¬ (mk (3 * n) task.getDeadline).1 ≥ (mk (3 * n + 1) deadline).1 :=
        fun h => hc (hcmp.mp h)
      simp [hge, List.filter_cons, hc]

theorem printTasksLoop_append (mk : Mktime) : ∀ (a b : List Task) (n : Nat),
    printTasksLoop mk n (a ++ b)
      = ((printTasksLoop mk n a).1 ++ (printTasksLoop mk (n + a.length) b).1,
         (printTasksLoop mk n a).2 ++ (printTasksLoop mk (n + a.length) b).2) := by
  intro a
  induction a with
  | nil => intro b n; simp [printTasksLoop]
  | cons t ts ih =>
    intro b n
    have e : n + 1 + ts.length = n + (ts.length + 1) := by omega
    rw [List.cons_append]
    simp only [printTasksLoop, ih b (n + 1), List.append_assoc, List.cons_append, List.length_cons, e]

/-- C17: after `addTask` of a Normal task built from a name, a description and a
date, that task is the last of the store and its `getImportance` is
`"Not Important"`; and whatever the library's `mktime` does, `printTasks` lists it
last: the text ends with the row of its name, its description, a date text and
the label `Not Important`, and the call leaves it the last task of the store,
a Normal task of that name and description. -/
theorem addTask_normal_listed_last (mk : Mktime) (tasks : List Task) (name description : Str)
    (deadline : Tm) :
    (addTask (Task.NormalTask name description deadline) tasks).getLast?
        = some (Task.NormalTask name description deadline) ∧
    (Task.NormalTask name description deadline).getImportance = "Not Important".toList ∧
    (printTasks mk (addTask (Task.NormalTask name description deadline) tasks)).2.getLast?
        = some (Task.NormalTask name description (mk tasks.length deadline).2) ∧
    ∃ dateText, List.IsSuffix
      (setw 30 name ++ setw 50 description ++ setw 20 dateText
        ++ "Not Important".toList ++ ['\n'])
      (printTasks mk (addTask (Task.NormalTask name description deadline) tasks)).1 := by
  have hstore : (Task.getDeadlineString (mk tasks.length)
      (Task.NormalTask name description deadline)).2
      = Task.NormalTask name description (mk tasks.length deadline).2 := by
    unfold Task.getDeadlineString
    split <;> rfl
  have hrow : printTasksLoop mk tasks.length [Task.NormalTask name description deadline]
      = (setw 30 name ++ setw 50 description
          ++ setw 20 (Task.getDeadlineString (mk tasks.length)
              (Task.NormalTask name description deadline)).1
          ++ "Not Important".toList ++ ['\n'],
         [Task.NormalTask name description (mk tasks.length deadline).2]) := by
    simp only [printTasksLoop, printRow, hstore, Task.getName, Task.getDescription,
      Task.getImportance, List.append_nil]
  have hne : addTask (Task.NormalTask name description deadline) tasks ≠ [] := by
    simp [addTask]
  refine ⟨by simp [addTask], rfl, ?_, ?_⟩
  · simp only [printTasks, hne, if_false]
    simp only [addTask, printTasksLoop_append, Nat.zero_add, hrow]
    simp
  · refine ⟨(Task.getDeadlineString (mk tasks.length)
      (Task.NormalTask name description deadline)).1, ?_⟩
    simp only [printTasks, hne, if_false]
    simp only [addTask, printTasksLoop_append, Nat.zero_add, hrow]
    exact ⟨_, List.append_assoc _ _ _⟩

end TaskMananger

/-! ## The format of the file -/

namespace TaskMananger

theorem recordText_eq_isoRecord (task : Task) (h : task.getDeadline.inRange)
    (hy : 1000 ≤ task.getDeadline.tm_year + 1900) : recordText task = isoRecord task := by
  cases task with
  | NormalTask n d t =>
    simp only [Task.getDeadline] at h hy
    simp only [recordText, isoRecord, strftime_isoDate t h hy]
  | ImportantTask n d t p =>
    simp only [Task.getDeadline] at h hy
    simp only [recordText, isoRecord, strftime_isoDate t h hy]

/-- C14 (amended): for every store whose names and descriptions hold no line
break and whose deadlines are dates `strptime` can deliver with a year of four
digits (1000 to 9999), `saveToFile` writes exactly one line per task, in store
order, each terminated by a newline: `Normal|name|description|YYYY-MM-DD` for a
Normal task and `Important|name|description|YYYY-MM-DD|priority`, the priority in
decimal, for an Important task. -/
theorem saveToFile_format (tasks : List Task)
    (h : ∀ t ∈ tasks, '\n' ∉ t.getName ∧ '\n' ∉ t.getDescription ∧ t.getDeadline.inRange ∧
      1000 ≤ t.getDeadline.tm_year + 1900) :
    (saveToFile true tasks).file = some ((tasks.map fun t => isoRecord t ++ ['\n']).flatten) ∧
    getlines '\n' ((tasks.map fun t => isoRecord t ++ ['\n']).flatten) = tasks.map isoRecord := by
  have hrec : ∀ t ∈ tasks, recordText t = isoRecord t :=
    fun t ht => recordText_eq_isoRecord t (h t ht).2.2.1 (h t ht).2.2.2
  have hmap1 : (tasks.map fun t => isoRecord t ++ ['\n'])
      = tasks.map fun t => recordText t ++ ['\n'] :=
    List.map_congr_left (fun t ht => by rw [hrec t ht])
  have hmap2 : tasks.map isoRecord = tasks.map recordText :=
    List.map_congr_left (fun t ht => (hrec t ht).symm)
  rw [hmap1, hmap2]
  refine ⟨?_, getlines_records tasks (fun t ht => ⟨(h t ht).1, (h t ht).2.1⟩)⟩
  simp only [saveToFile, if_true, Option.some.injEq]
  congr 1
  exact List.map_congr_left (fun t _ => saveLine_eq_recordText t)

theorem saveToFile_format_witness :
    (∀ t ∈ scenarioStore, '\n' ∉ t.getName ∧ '\n' ∉ t.getDescription ∧ t.getDeadline.inRange ∧
      1000 ≤ t.getDeadline.tm_year + 1900) ∧
    (saveToFile true scenarioStore).file
      = some "Normal|Report|Write report|2025-01-10\nImportant|Launch|Ship v1|2025-02-01|9\n".toList ∧
    getlines '\n' ((scenarioStore.map fun t => isoRecord t ++ ['\n']).flatten)
      = ["Normal|Report|Write report|2025-01-10".toList,
         "Important|Launch|Ship v1|2025-02-01|9".toList] :=
  ⟨by decide, (saveToFile_format scenarioStore (by decide)).1.trans (by decide),
   (saveToFile_format scenarioStore (by decide)).2.trans (by decide)⟩

/-- C14 as stated fails.  The date 0999-01-05, which `strptime` accepts, is
written `999-01-05`: the year is printed without padding, not as `YYYY`.  A year
of five digits is written with five.  And a task whose name holds a line break
takes two lines of the file. -/
theorem saveToFile_format_counterexample :
    (strptime "0999-01-05".toList = some ⟨5, 0, -901⟩ ∧
      (saveToFile true [Task.NormalTask "a".toList "b".toList ⟨5, 0, -901⟩]).file
        = some "Normal|a|b|999-01-05\n".toList ∧
      isoRecord (Task.NormalTask "a".toList "b".toList ⟨5, 0, -901⟩)
        = "Normal|a|b|0999-01-05".toList) ∧
    (saveToFile true [Task.NormalTask "a".toList "b".toList ⟨1, 0, 8100⟩]).file
        = some "Normal|a|b|10000-01-01\n".toList ∧
    ((saveToFile true [Task.NormalTask "a\nb".toList "d".toList ⟨10, 0, 125⟩]).file
        = some "Normal|a\nb|d|2025-01-10\n".toList ∧
      getlines '\n' "Normal|a\nb|d|2025-01-10\n".toList
        = ["Normal|a".toList, "b|d|2025-01-10".toList]) := by
  decide

end TaskMananger

end Lab21
